import Mathlib

/-!
# Archive-backed file system (`pkg/zipfs/zipfs.go`), facade and tracer

A shallow embedding of the zip-backed file system: the path canonicalizer
(`cleanupName`, `isRooted`, `stripRoot`), the index builder `New`, and the
operations `Open`, `Readdirnames` and `Stat`; of the facade `IntfFS`
(`internal/fs/fs_intf.go`: `ReadDirectory`, `ReadFile`); and of the
instrumenting backend `TraceFs` (`pkg/cli/trace_fs.go`).

Conventions of the embedding
* A Go `string` is the list of its bytes, written `List Char` (every character
  the code inspects is ASCII: `/` and `.`).
* The Go map `entries map[string]*ZipEntry` is an association list read with
  `lookup` and written with `store`; nothing in the program iterates over it.
* A `panic` of `New` and an `error` return are both a failure value of `New`.
* The real file system is a parameter (`RealFS`) giving the outcome of each
  `os` call, and the outcome of `(*zip.File).Open` on a member is a parameter
  of `Open`; the methods of `TraceFs` take the outcome of their `os` calls as
  an argument and return the new state with the result.
-/

namespace Zipfs

/-- A Go string, as the list of its bytes. -/
abbrev Str := List Char

deriving instance DecidableEq for Except

/-! ## Package `strings` -/

/-- Go `strings.HasPrefix(s, p)`. -/
def hasPrefix (s p : Str) : Bool := p.isPrefixOf s

/-- Go `strings.TrimPrefix(s, p)`. -/
def trimPrefix (s p : Str) : Str := if hasPrefix s p then s.drop p.length else s

/-- Go `strings.TrimLeft(s, "/")`. -/
def trimLeftSlash (s : Str) : Str := s.dropWhile (fun c => c == '/')

/-- Go `strings.TrimRight(s, "/")`. -/
def trimRightSlash (s : Str) : Str := (trimLeftSlash s.reverse).reverse

/-! ## Package `path/filepath` (Unix) -/

/-- The elements of a path: the pieces between the separators `/`
(`"a//b"` has the elements `a`, the empty element and `b`). -/
def splitSlash : Str → List Str
  | [] => [[]]
  | c :: cs =>
    if c = '/' then [] :: splitSlash cs
    else match splitSlash cs with
      | [] => [[c]]
      | h :: t => (c :: h) :: t

/-- One round of the loop of `filepath.Clean` over the elements of the path;
`out` holds the elements written so far, last written first.  An empty
element and `.` are skipped; `..` removes the last written element when there
is one to backtrack over, is kept on a path that is not rooted and is dropped
at the root; any other element is written. -/
def cleanElems (rooted : Bool) : List Str → List Str → List Str
  | [], out => out
  | e :: es, out =>
    if e = [] ∨ e = ['.'] then cleanElems rooted es out
    else if e = ['.', '.'] then
      match out with
      | top :: below =>
        if top = ['.', '.'] then cleanElems rooted es (e :: out)
        else cleanElems rooted es below
      | [] => if rooted then cleanElems rooted es [] else cleanElems rooted es [e]
    else cleanElems rooted es (e :: out)

/-- Join path elements with `/`. -/
def joinSlash : List Str → Str
  | [] => []
  | [e] => e
  | e :: es => e ++ '/' :: joinSlash es

/-- Go `filepath.Clean(path)` on Unix, by the rules of its documentation:
multiple separators become one, `.` elements go, an inner `..` goes together
with the element before it, `..` at the start of a rooted path goes, and the
empty result is `.`. -/
def Clean (path : Str) : Str :=
  let rooted := hasPrefix path ['/']
  let body := joinSlash (cleanElems rooted (splitSlash path) []).reverse
  if rooted then '/' :: body
  else if body = [] then ['.'] else body

/-- The part of a path up to and including its last `/` (empty when there is
no `/`): `path[:i+1]` in `filepath.Dir`. -/
def dirPart (path : Str) : Str := (path.reverse.dropWhile (fun c => c != '/')).reverse

/-- Go `filepath.Dir(path)` on Unix. -/
def Dir (path : Str) : Str := Clean (dirPart path)

/-- Go `filepath.Base(path)` on Unix. -/
def Base (path : Str) : Str :=
  if path = [] then ['.']
  else
    let p := trimRightSlash path
    let last := (p.reverse.takeWhile (fun c => c != '/')).reverse
    if last = [] then ['/'] else last

/-! ## The path canonicalizer of `zipfs.go` -/

/-- Method `(*ZipFS).cleanupName`. -/
def cleanupName (name : Str) : Str :=
  let name := Clean name
  let name := if hasPrefix name ['.', '/'] then name.drop 2 else name
  let name := trimLeftSlash name
  let name := trimRightSlash name
  name

/-- Method `(*ZipFS).isRooted`: `name == root || (strings.HasPrefix(name, root)
&& name[len(root)] == '/')`.  The index is read only after the two tests
before it, so it is in range whenever it is evaluated. -/
def isRooted (name root : Str) : Bool :=
  name == root || (hasPrefix name root && name[root.length]? == some '/')

/-- Method `(*ZipFS).stripRoot`. -/
def stripRoot (name root : Str) : Str :=
  let name := trimPrefix name root
  let name := trimLeftSlash name
  name

/-! ## Package `io/fs`: file mode bits -/

/-- Go `fs.ModeDir` (`1 << 31`). -/
def ModeDir : Nat := 2147483648

/-- Go `fs.ModeSymlink` (`1 << 27`). -/
def ModeSymlink : Nat := 134217728

/-- Go `fs.ModeType`: `ModeDir | ModeSymlink | ModeNamedPipe | ModeSocket |
ModeDevice | ModeCharDevice | ModeIrregular` (bits 31, 27, 26, 25, 24, 21, 19). -/
def ModeType : Nat := 2401763328

/-! ## Data model -/

/-- The three values `New` assigns to `ZipEntry.K`: `"fil"`, `"dir"`, `"sym"`. -/
inductive Kind where
  | fil
  | dir
  | sym
  deriving DecidableEq, Repr

/-- What the program reads of a `*zip.File`: its `Name`, the value of
`Mode()` (an `fs.FileMode`, 32 bits) and the stored bytes that `Open()`
streams. -/
structure ZipFile where
  Name : Str
  Mode : Nat
  Ctnt : List Nat
  deriving DecidableEq, Repr

/-- The descriptor `zf.FileInfo()` of a member (`os.FileInfo`): base name and
mode. -/
structure FileInfo where
  Name : Str
  Mode : Nat
  deriving DecidableEq, Repr

/-- Go `FileInfo.IsDir()`: `Mode()&ModeDir != 0`. -/
def FileInfo.IsDir (fi : FileInfo) : Bool := fi.Mode &&& ModeDir != 0

/-- Go `(*zip.File).FileInfo()`. -/
def ZipFile.FileInfo (zf : ZipFile) : FileInfo := { Name := Base zf.Name, Mode := zf.Mode }

/-- Struct `ZipEntry` (the fields `Ctnt` and `Link` are never assigned). -/
structure ZipEntry where
  Name : Str
  K : Kind
  F : ZipFile
  D : List Str
  deriving DecidableEq, Repr

/-- The map `entries map[string]*ZipEntry`. -/
abbrev Entries := List (Str × ZipEntry)

/-- Map read `entries[k]` (`none` is Go's `nil`). -/
def lookup : Entries → Str → Option ZipEntry
  | [], _ => none
  | (k', e) :: rest, k => if k' = k then some e else lookup rest k

/-- Map write `entries[k] = e`; also the write through the pointer held in
the map. -/
def store : Entries → Str → ZipEntry → Entries
  | [], k, e => [(k, e)]
  | (k', e') :: rest, k, e => if k' = k then (k, e) :: rest else (k', e') :: store rest k e

/-- Struct `ZipFS` (without the logger). -/
structure ZipFS where
  cwd : Str
  rootDir : Str
  root : Str
  entries : Entries
  deriving DecidableEq, Repr

/-- The ways `New` fails: an error returned while opening and reading the
archive, and its two panics. -/
inductive Failure where
  | io (msg : Str)
  | unhandledMode (mode : Nat)
  | duplicateEntry (name : Str) (have_ : Kind) (got : Kind)
  deriving DecidableEq, Repr

/-! ## `New`: building the index -/

/-- The `switch mode` of `New` on `zf.Mode() & fs.ModeType`; `none` is the
`default` branch, which panics. -/
def classify (mode : Nat) : Option Kind :=
  let mode := mode &&& ModeType
  if mode = 0 then some Kind.fil
  else if mode = ModeDir then some Kind.dir
  else if mode = ModeSymlink then some Kind.sym
  else none

/-- The directory name computed in `New`: `filepath.Dir(name)`, with `"."`
replaced by `""`. -/
def dirNameOf (name : Str) : Str :=
  let dirName := Dir name
  if dirName = ['.'] then [] else dirName

/-- Lines 113-125 of `New`: register `name` in its parent's `D`, when the
parent is in the map (otherwise only a log line is written). -/
def addChild (es : Entries) (name : Str) : Entries :=
  if name ≠ [] then
    let dirName := dirNameOf name
    match lookup es dirName with
    | some d => store es dirName { d with D := d.D ++ [Base name] }
    | none => es
  else es

/-- The body of the loop of `New` for one member `zf`. -/
def indexMember (zipRoot : Str) (es : Entries) (zf : ZipFile) : Except Failure Entries :=
  match classify zf.Mode with
  | none => .error (.unhandledMode (zf.Mode &&& ModeType))
  | some kind =>
    let name := cleanupName zf.Name
    if !isRooted name zipRoot then .ok es
    else
      let name := stripRoot name zipRoot
      match lookup es name with
      | some entry =>
        if entry.K ≠ kind then .error (.duplicateEntry name entry.K kind)
        else .ok (addChild es name)
      | none =>
        .ok (addChild (store es name { Name := name, K := kind, F := zf, D := [] }) name)

/-- The loop `for _, zf := range zr.File` of `New`. -/
def indexAll (zipRoot : Str) : Entries → List ZipFile → Except Failure Entries
  | es, [] => .ok es
  | es, zf :: rest =>
    match indexMember zipRoot es zf with
    | .error p => .error p
    | .ok es' => indexAll zipRoot es' rest

/-- Function `New(file, fsRoot, zipRoot, cwd)`.  `zr` is the outcome of opening
`file` and reading it as a zip archive: an error, or the member list
`zr.File`. -/
def New (zr : Except Str (List ZipFile)) (fsRoot zipRoot cwd : Str) : Except Failure ZipFS :=
  match zr with
  | .error e => .error (.io e)
  | .ok members =>
    let zipRoot := cleanupName zipRoot
    match indexAll zipRoot [] members with
    | .error p => .error p
    | .ok es => .ok { cwd := cwd, rootDir := Dir fsRoot, root := fsRoot, entries := es }

/-! ## The operations of `ZipFS` -/

/-- The errors the operations return: `fs.ErrNotExist`, `fs.ErrInvalid`, any
error of the real file system, and any error of `(*zip.File).Open`.  The
archive is read through the `*os.File` that `New` opens (`zip.NewReader(f,
stat.Size())`), so the latter are `zip.ErrFormat`, `zip.ErrAlgorithm`, or a
read error of that file (`io.ErrUnexpectedEOF`, a `*fs.PathError`): values
other than `fs.ErrNotExist` and `fs.ErrInvalid`, kept apart as `zip`. -/
inductive Error where
  | ErrNotExist
  | ErrInvalid
  | os (msg : Str)
  | zip (msg : Str)
  deriving DecidableEq, Repr

/-- The outcome of the calls the program makes into package `os`. -/
structure RealFS where
  Open : Str → Except Error (List Nat)
  Readdirnames : Str → Except Error (List Str)
  Stat : Str → Except Error FileInfo

/-- Lines 154-158 of `Open`: `f, err := e.F.Open()`, the error returned when
there is one, the stream otherwise.  `zipErr f` is the error with which
`f.Open()` fails on the member `f`, `none` when it opens; the stream of a
member that opens is its stored bytes. -/
def openMember (zipErr : ZipFile → Option Str) (f : ZipFile) : Except Error (List Nat) :=
  match zipErr f with
  | some msg => .error (.zip msg)
  | none => .ok f.Ctnt

/-- Method `(*ZipFS).Open`; `zipErr` gives the outcome of `(*zip.File).Open`
on each member (see `openMember`). -/
def Open (os : RealFS) (zipErr : ZipFile → Option Str) (zfs : ZipFS) (name : Str) :
    Except Error (List Nat) :=
  if !hasPrefix name zfs.root then os.Open name
  else
    let name := stripRoot name zfs.root
    match lookup zfs.entries name with
    | none => .error .ErrNotExist
    | some e =>
      if e.K ≠ Kind.fil then .error .ErrInvalid
      else openMember zipErr e.F

/-- Method `(*ZipFS).Readdirnames`. -/
def Readdirnames (os : RealFS) (zfs : ZipFS) (name : Str) : Except Error (List Str) :=
  if !hasPrefix name zfs.root then
    match os.Readdirnames name with
    | .ok names => if name = zfs.rootDir then .ok (names ++ ["node_modules".toList]) else .ok names
    | .error err => .error err
  else
    let name := stripRoot name zfs.root
    match lookup zfs.entries name with
    | none => .error .ErrNotExist
    | some e =>
      if e.K ≠ Kind.dir then .error .ErrInvalid
      else .ok e.D

/-- Method `(*ZipFS).Stat`. -/
def Stat (os : RealFS) (zfs : ZipFS) (path : Str) : Except Error FileInfo :=
  if !hasPrefix path zfs.root then os.Stat path
  else
    let path := stripRoot path zfs.root
    match lookup zfs.entries path with
    | none => .error .ErrNotExist
    | some e => .ok e.F.FileInfo

/-! ## Specification vocabulary -/

/-- The canonical relative name of a member: `none` when `New` skips it as
lying outside the in-archive root (`zipRoot` already cleaned). -/
def canonName (zipRoot : Str) (zf : ZipFile) : Option Str :=
  if isRooted (cleanupName zf.Name) zipRoot then some (stripRoot (cleanupName zf.Name) zipRoot)
  else none

/-- The kind `New` gives a member whose mode it accepts. -/
def kindOf (zf : ZipFile) : Kind :=
  match classify zf.Mode with
  | some k => k
  | none => Kind.fil

/-- The base name of a member, when its parent directory is `dir` (`none`
for every other member). -/
def childBase (zipRoot dir : Str) (zf : ZipFile) : Option Str :=
  match canonName zipRoot zf with
  | some name => if name ≠ [] ∧ dirNameOf name = dir then some (Base name) else none
  | none => none

/-- The members listed before the first member whose canonical name is `k`. -/
def membersBefore (zipRoot k : Str) (ms : List ZipFile) : List ZipFile :=
  ms.takeWhile (fun m => decide (canonName zipRoot m ≠ some k))

/-- The members from the first member whose canonical name is `k` on. -/
def membersFrom (zipRoot k : Str) (ms : List ZipFile) : List ZipFile :=
  ms.dropWhile (fun m => decide (canonName zipRoot m ≠ some k))

/-- An entry with names appended to its `D`. -/
def ZipEntry.appendD (e : ZipEntry) (names : List Str) : ZipEntry := { e with D := e.D ++ names }

/-! ## Concrete archives -/

/-- A real file system on which every call fails. -/
def noRealFS : RealFS :=
  { Open := fun _ => .error (.os []),
    Readdirnames := fun _ => .error (.os []),
    Stat := fun _ => .error (.os []) }

/-- Mode of a directory member, `drwxr-xr-x`. -/
def dirMode : Nat := ModeDir + 493

/-- Mode of a regular file member, `-rw-r--r--`. -/
def fileMode : Nat := 420

/-- Members `pkg/lib/` and `pkg/lib/index.js`. -/
def scenarioArchive : List ZipFile :=
  [⟨"pkg/lib/".toList, dirMode, []⟩, ⟨"pkg/lib/index.js".toList, fileMode, [105, 59]⟩]

/-- The file system of `scenarioArchive` with in-archive root `pkg/`, mounted
at `/proj/node_modules/pkg`. -/
def scenarioFS : ZipFS :=
  { cwd := "/proj".toList,
    rootDir := "/proj/node_modules".toList,
    root := "/proj/node_modules/pkg".toList,
    entries :=
      [("lib".toList,
          ⟨"lib".toList, Kind.dir, ⟨"pkg/lib/".toList, dirMode, []⟩, ["index.js".toList]⟩),
        ("lib/index.js".toList,
          ⟨"lib/index.js".toList, Kind.fil, ⟨"pkg/lib/index.js".toList, fileMode, [105, 59]⟩,
            []⟩)] }

/-- An archive listing the name `pkg/a.js` twice, with different bytes. -/
def dupArchive : List ZipFile :=
  [⟨"pkg/a.js".toList, fileMode, [1]⟩, ⟨"pkg/a.js".toList, fileMode, [2]⟩]

/-- The file system of `dupArchive` with in-archive root `pkg/`, mounted at `/m`. -/
def dupFS : ZipFS :=
  { cwd := "/".toList,
    rootDir := "/".toList,
    root := "/m".toList,
    entries := [("a.js".toList, ⟨"a.js".toList, Kind.fil, ⟨"pkg/a.js".toList, fileMode, [1]⟩, []⟩)] }

/-- The members of `scenarioArchive` in the other order. -/
def reversedArchive : List ZipFile :=
  [⟨"pkg/lib/index.js".toList, fileMode, [105, 59]⟩, ⟨"pkg/lib/".toList, dirMode, []⟩]

/-- The file system of `reversedArchive`, built like `scenarioFS`. -/
def reversedFS : ZipFS :=
  { cwd := "/proj".toList,
    rootDir := "/proj/node_modules".toList,
    root := "/proj/node_modules/pkg".toList,
    entries :=
      [("lib/index.js".toList,
          ⟨"lib/index.js".toList, Kind.fil, ⟨"pkg/lib/index.js".toList, fileMode, [105, 59]⟩,
            []⟩),
        ("lib".toList, ⟨"lib".toList, Kind.dir, ⟨"pkg/lib/".toList, dirMode, []⟩, []⟩)] }

/-- One file member `pkg/c`. -/
def siblingArchive : List ZipFile := [⟨"pkg/c".toList, fileMode, [7]⟩]

/-- The file system of `siblingArchive` with in-archive root `pkg`, mounted at `/a/b`. -/
def siblingFS : ZipFS :=
  { cwd := "/".toList,
    rootDir := "/a".toList,
    root := "/a/b".toList,
    entries := [("c".toList, ⟨"c".toList, Kind.fil, ⟨"pkg/c".toList, fileMode, [7]⟩, []⟩)] }

/-- One file member `pkg/a.js`, and no member for the directory `pkg/` itself. -/
def rootlessArchive : List ZipFile := [⟨"pkg/a.js".toList, fileMode, [1]⟩]

/-- The file system of `rootlessArchive` with in-archive root `pkg/`, mounted at `/m`. -/
def rootlessFS : ZipFS :=
  { cwd := "/".toList,
    rootDir := "/".toList,
    root := "/m".toList,
    entries := [("a.js".toList, ⟨"a.js".toList, Kind.fil, ⟨"pkg/a.js".toList, fileMode, [1]⟩, []⟩)] }

/-- Members `pkg/` and `pkg/a.js`. -/
def rootedArchive : List ZipFile :=
  [⟨"pkg/".toList, dirMode, []⟩, ⟨"pkg/a.js".toList, fileMode, [1]⟩]

/-- The file system of `rootedArchive` with in-archive root `pkg/`, mounted at `/m`. -/
def rootedFS : ZipFS :=
  { cwd := "/".toList,
    rootDir := "/".toList,
    root := "/m".toList,
    entries :=
      [([], ⟨[], Kind.dir, ⟨"pkg/".toList, dirMode, []⟩, ["a.js".toList]⟩),
        ("a.js".toList, ⟨"a.js".toList, Kind.fil, ⟨"pkg/a.js".toList, fileMode, [1]⟩, []⟩)] }

/-- Go `fs.ModeNamedPipe` (`1 << 25`). -/
def ModeNamedPipe : Nat := 33554432

/-- A file member under `pkg/` and a named pipe outside it. -/
def pipeArchive : List ZipFile :=
  [⟨"pkg/a.js".toList, fileMode, [1]⟩, ⟨"other/fifo".toList, ModeNamedPipe + 420, []⟩]

/-- A file `pkg/x` and a directory `pkg/x/`. -/
def collisionArchive : List ZipFile :=
  [⟨"pkg/x".toList, fileMode, [1]⟩, ⟨"pkg/x/".toList, dirMode, []⟩]

/-! ## `isRooted` with its index checked -/

/-- Method `(*ZipFS).isRooted`, evaluated as Go does, left to right with
short-circuit `||` and `&&`; `none` is the run-time panic of an index
`name[len(root)]` out of range. -/
def isRootedChecked (name root : Str) : Option Bool :=
  if name = root then some true
  else if hasPrefix name root then
    match name[root.length]? with
    | some c => some (c == '/')
    | none => none
  else some false

/-- A real file system in which the one directory `dir` lists as `names`
and every other call fails. -/
def listingOS (dir : Str) (names : List Str) : RealFS :=
  { Open := fun _ => .error (.os []),
    Readdirnames := fun name => if name = dir then .ok names else .error (.os []),
    Stat := fun _ => .error (.os []) }

/-- Members `node_modules/`, `node_modules/react/` and
`node_modules/react/index.js`. -/
def nodeModulesArchive : List ZipFile :=
  [⟨"node_modules/".toList, dirMode, []⟩, ⟨"node_modules/react/".toList, dirMode, []⟩,
    ⟨"node_modules/react/index.js".toList, fileMode, [1]⟩]

/-- The file system of `nodeModulesArchive` with in-archive root
`node_modules/`, mounted at `/proj/node_modules` (the configuration of
`TestApiZipFS` with working directory `/proj`). -/
def nodeModulesFS : ZipFS :=
  { cwd := "/proj".toList,
    rootDir := "/proj".toList,
    root := "/proj/node_modules".toList,
    entries :=
      [([], ⟨[], Kind.dir, ⟨"node_modules/".toList, dirMode, []⟩, ["react".toList]⟩),
        ("react".toList,
          ⟨"react".toList, Kind.dir, ⟨"node_modules/react/".toList, dirMode, []⟩,
            ["index.js".toList]⟩),
        ("react/index.js".toList,
          ⟨"react/index.js".toList, Kind.fil,
            ⟨"node_modules/react/index.js".toList, fileMode, [1]⟩, []⟩)] }

/-! ## The facade `IntfFS` (`internal/fs/fs_intf.go`) -/

/-- Go `filepath.IsAbs(path)` on Unix. -/
def IsAbs (path : Str) : Bool := hasPrefix path ['/']

/-- Go `filepath.Join(a, b)` on Unix: the elements from the first non-empty
one on, joined with `/` and cleaned; `""` when both are empty. -/
def Join (a b : Str) : Str :=
  if a ≠ [] then Clean (a ++ '/' :: b)
  else if b ≠ [] then Clean b
  else []

/-- An `io.ReadCloser`, as the outcome of copying it to the end (`io.Copy`):
the bytes read, or the error that stopped the copy. -/
abbrev ReadCloser := Except Error (List Nat)

/-- Interface `FsLike` (`internal/fs/fslike.go`): the outcome of each call of
a backend. -/
structure FsLike where
  Getwd : Str × Option Error
  Open : Str → Except Error ReadCloser
  Readdirnames : Str → Except Error (List Str)
  Stat : Str → Except Error FileInfo

/-- Struct `IntfFS`. -/
structure IntfFS where
  cwd : Str
  inner : FsLike

/-- Function `NewIntfFS`. -/
def NewIntfFS (fs : FsLike) : IntfFS := { cwd := fs.Getwd.1, inner := fs }

/-- Modelled from the spec: the type `Entry` of package `fs` is declared
outside these sources; it is a lazily-stat'd record, of which `ReadDirectory`
sets the directory, the base name and the `needStat` flag. -/
structure Entry where
  dir : Str
  base : Str
  needStat : Bool
  deriving DecidableEq, Repr

/-- Modelled from the spec: the type `DirEntries` of package `fs` is declared
outside these sources; it is the absolute directory path plus a mapping from
case-folded base name to `Entry`.  The zero value `DirEntries{}` has the empty
path and no mapping. -/
structure DirEntries where
  dir : Str
  data : List (Str × Entry)
  deriving DecidableEq, Repr

/-- Map read `entries.data[k]`. -/
def lookupData : List (Str × Entry) → Str → Option Entry
  | [], _ => none
  | (k', e) :: rest, k => if k' = k then some e else lookupData rest k

/-- Map write `entries.data[k] = e`. -/
def storeData : List (Str × Entry) → Str → Entry → List (Str × Entry)
  | [], k, e => [(k, e)]
  | (k', e') :: rest, k, e =>
    if k' = k then (k, e) :: rest else (k', e') :: storeData rest k e

/-- Method `(*IntfFS).toAbs`. -/
def IntfFS.toAbs (f : IntfFS) (foo : Str) : Str :=
  if !IsAbs foo then Join f.cwd foo else foo

/-- The loop `for _, name := range names` of `ReadDirectory`; `ToLower` is
Go's `strings.ToLower`. -/
def fillEntries (ToLower : Str → Str) (dir : Str) :
    List (Str × Entry) → List Str → List (Str × Entry)
  | data, [] => data
  | data, name :: rest =>
    fillEntries ToLower dir
      (storeData data (ToLower name) { dir := dir, base := name, needStat := true }) rest

/-- Method `(*IntfFS).ReadDirectory`, returning `(entries, canonicalError,
originalError)`; `ToLower` is Go's `strings.ToLower`. -/
def IntfFS.ReadDirectory (ToLower : Str → Str) (f : IntfFS) (dir : Str) :
    DirEntries × Option Error × Option Error :=
  let dir := if !IsAbs dir then Join f.cwd dir else dir
  match f.inner.Readdirnames dir with
  | .error err => ({ dir := [], data := [] }, some err, some err)
  | .ok names => ({ dir := dir, data := fillEntries ToLower dir [] names }, none, none)

/-- Method `(*IntfFS).ReadFile`, returning `(contents, canonicalError,
originalError)`; the contents are the bytes of the Go string. -/
def IntfFS.ReadFile (f : IntfFS) (path : Str) : List Nat × Option Error × Option Error :=
  let path := f.toAbs path
  match f.inner.Open path with
  | .error err => ([], some err, some err)
  | .ok rc =>
    match rc with
    | .error err => ([], some err, some err)
    | .ok bytes => (bytes, none, none)

/-- Lower-casing of the ASCII letters, the part of `strings.ToLower` used in
the examples. -/
def asciiLower (s : Str) : Str :=
  s.map (fun c => if 65 ≤ c.toNat ∧ c.toNat ≤ 90 then Char.ofNat (c.toNat + 32) else c)

/-- A backend in which the one directory `dir` lists as `names` and every
other call fails. -/
def listingBackend (dir : Str) (names : List Str) : FsLike :=
  { Getwd := ("/proj".toList, none),
    Open := fun _ => .error Error.ErrNotExist,
    Readdirnames := fun name => if name = dir then .ok names else .error Error.ErrNotExist,
    Stat := fun _ => .error Error.ErrNotExist }

/-- A facade with working directory `/proj` over a backend whose directory
`/proj/src` lists `App.JSX`, `app.jsx` and `lib`. -/
def caseFS : IntfFS :=
  NewIntfFS (listingBackend "/proj/src".toList ["App.JSX".toList, "app.jsx".toList, "lib".toList])

/-! ## The instrumenting backend `TraceFs` (`pkg/cli/trace_fs.go`) -/

/-- Struct `TraceFs`: the three recorded lists (the field `real` only serves
`Getwd`). -/
structure TraceFs where
  failedirs : List Str
  dirnames : List Str
  openfiles : List Str
  deriving DecidableEq, Repr

/-- The `TraceFs` that `NewTraceFS` returns: nothing recorded. -/
def TraceFs.fresh : TraceFs := { failedirs := [], dirnames := [], openfiles := [] }

/-- The loop of `addStr` over the strings still to compare: return `strs` at
the first one equal to `str`, append `str` when the loop ends. -/
def addStrLoop (strs : List Str) (str : Str) : List Str → List Str
  | [] => strs ++ [str]
  | s :: rest => if s = str then strs else addStrLoop strs str rest

/-- Function `addStr`. -/
def addStr (strs : List Str) (str : Str) : List Str := addStrLoop strs str strs

/-- Method `(*TraceFs).Open`: the new state and the result; `osOpen` is the
outcome of `os.Open(name)`. -/
def TraceFs.Open (fsys : TraceFs) (name : Str) (osOpen : Except Error ReadCloser) :
    TraceFs × Except Error ReadCloser :=
  match osOpen with
  | .error err => (fsys, .error err)
  | .ok f => ({ fsys with openfiles := addStr fsys.openfiles name }, .ok f)

/-- Method `(*TraceFs).Readdirnames`: the new state and the result; `osOpen`
is the outcome of `os.Open(name)` and, when the file opened, of
`f.Readdirnames(0)` on it. -/
def TraceFs.Readdirnames (fsys : TraceFs) (name : Str)
    (osOpen : Except Error (Except Error (List Str))) : TraceFs × Except Error (List Str) :=
  match osOpen with
  | .error err => ({ fsys with failedirs := addStr fsys.failedirs name }, .error err)
  | .ok f => ({ fsys with dirnames := addStr fsys.dirnames name }, f)

/-- The lines `b.WriteString(tag + path + "\n")` written for each path. -/
def writeLines (tag : Str) : List Str → Str
  | [] => []
  | p :: ps => (tag ++ p ++ ['\n']) ++ writeLines tag ps

/-- Method `(*TraceFs).ScanLog`. -/
def TraceFs.ScanLog (fsys : TraceFs) : Str :=
  if fsys.dirnames.length = 0 ∧ fsys.openfiles.length = 0 then "-- nothing was opened --".toList
  else
    let b : Str := []
    let b := if fsys.dirnames.length > 0 then
      b ++ writeLines "\tdir: ".toList fsys.dirnames ++ ['\n'] else b
    let b := if fsys.failedirs.length > 0 then
      b ++ writeLines "\ttry: ".toList fsys.failedirs ++ ['\n'] else b
    let b := if fsys.openfiles.length > 0 then
      b ++ writeLines "\tfile: ".toList fsys.openfiles ++ ['\n'] else b
    b

/-- One call of the backend, with the outcome of the `os` calls it makes. -/
inductive TraceCall where
  | callOpen (name : Str) (osOpen : Except Error ReadCloser)
  | callReaddirnames (name : Str) (osOpen : Except Error (Except Error (List Str)))

/-- The state after one call. -/
def TraceFs.step (fsys : TraceFs) : TraceCall → TraceFs
  | .callOpen name osOpen => (fsys.Open name osOpen).1
  | .callReaddirnames name osOpen => (fsys.Readdirnames name osOpen).1

/-- The state after a sequence of calls. -/
def TraceFs.run (fsys : TraceFs) : List TraceCall → TraceFs
  | [] => fsys
  | c :: cs => TraceFs.run (fsys.step c) cs

/-- The paths a sequence of calls records as opened files: those of the
`Open` calls whose `os.Open` succeeded, in call order. -/
def openedPaths : List TraceCall → List Str
  | [] => []
  | .callOpen name (.ok _) :: cs => name :: openedPaths cs
  | _ :: cs => openedPaths cs

/-- The paths a sequence of calls records as listed directories: those of the
`Readdirnames` calls whose `os.Open` succeeded, in call order. -/
def listedPaths : List TraceCall → List Str
  | [] => []
  | .callReaddirnames name (.ok _) :: cs => name :: listedPaths cs
  | _ :: cs => listedPaths cs

/-- The paths a sequence of calls records as failed directories: those of the
`Readdirnames` calls whose `os.Open` failed, in call order. -/
def failedPaths : List TraceCall → List Str
  | [] => []
  | .callReaddirnames name (.error _) :: cs => name :: failedPaths cs
  | _ :: cs => failedPaths cs

/-- A list with every occurrence of a string after its first one removed. -/
def firstOccurrences : List Str → List Str
  | [] => []
  | x :: xs => x :: (firstOccurrences xs).filter (fun y => decide (y ≠ x))

/-- A file `pkg/a` and a file `pkg/a/b` beneath it. -/
def fileParentArchive : List ZipFile :=
  [⟨"pkg/a".toList, fileMode, [1]⟩, ⟨"pkg/a/b".toList, fileMode, [2]⟩]

/-- The file system of `fileParentArchive` with in-archive root `pkg/`,
mounted at `/m`. -/
def fileParentFS : ZipFS :=
  { cwd := "/".toList,
    rootDir := "/".toList,
    root := "/m".toList,
    entries :=
      [("a".toList, ⟨"a".toList, Kind.fil, ⟨"pkg/a".toList, fileMode, [1]⟩, ["b".toList]⟩),
        ("a/b".toList, ⟨"a/b".toList, Kind.fil, ⟨"pkg/a/b".toList, fileMode, [2]⟩, []⟩)] }

/-! ## Path elements -/

/-- A path element that `filepath.Clean` writes as it stands: not empty, not
`.`, not `..`, and without `/`. -/
def RealElem (e : Str) : Prop := e ≠ [] ∧ e ≠ ['.'] ∧ e ≠ ['.', '.'] ∧ '/' ∉ e

/-- The elements of a cleaned path that is not rooted: some `..` elements,
then real elements. -/
def NormalElems (l : List Str) : Prop :=
  ∃ (n : Nat) (rs : List Str), l = List.replicate n ['.', '.'] ++ rs ∧ ∀ e ∈ rs, RealElem e

/-- The directory `pkg/` and the name `pkg/a.js` listed twice. -/
def dupChildArchive : List ZipFile :=
  [⟨"pkg/".toList, dirMode, []⟩, ⟨"pkg/a.js".toList, fileMode, [1]⟩,
    ⟨"pkg/a.js".toList, fileMode, [2]⟩]

/-- The file system of `dupChildArchive` with in-archive root `pkg/`, mounted
at `/m`. -/
def dupChildFS : ZipFS :=
  { cwd := "/".toList,
    rootDir := "/".toList,
    root := "/m".toList,
    entries :=
      [([], ⟨[], Kind.dir, ⟨"pkg/".toList, dirMode, []⟩, ["a.js".toList, "a.js".toList]⟩),
        ("a.js".toList, ⟨"a.js".toList, Kind.fil, ⟨"pkg/a.js".toList, fileMode, [1]⟩, []⟩)] }

/-! ## The map -/

theorem lookup_store (es : Entries) (k k' : Str) (v : ZipEntry) :
    lookup (store es k v) k' = if k = k' then some v else lookup es k' := by
  induction es with
  | nil => simp [store, lookup]
  | cons p rest ih =>
    obtain ⟨k0, e0⟩ := p
    by_cases h0 : k0 = k
    · subst h0
      by_cases h1 : k0 = k' <;> simp [store, lookup, h1]
    · by_cases h1 : k0 = k'
      · subst h1
        have : ¬ k = k0 := fun h => h0 h.symm
        simp [store, lookup, h0, this]
      · simp [store, lookup, h0, h1, ih]

theorem lookup_addChild (es : Entries) (name k : Str) :
    lookup (addChild es name) k =
      (lookup es k).map (fun e =>
        e.appendD (if name ≠ [] ∧ dirNameOf name = k then [Base name] else [])) := by
  unfold addChild
  by_cases hn : name = []
  · subst hn
    cases h : lookup es k <;> simp [ZipEntry.appendD, h]
  · simp only [ne_eq, hn, not_false_eq_true, ↓reduceIte, true_and]
    cases hd : lookup es (dirNameOf name) with
    | none =>
      by_cases hk : dirNameOf name = k
      · subst hk
        simp [hd]
      · cases h : lookup es k <;> simp [hk, ZipEntry.appendD, h]
    | some d =>
      simp only [lookup_store]
      by_cases hk : dirNameOf name = k
      · subst hk
        simp [hd, ZipEntry.appendD]
      · cases h : lookup es k <;> simp [hk, ZipEntry.appendD, h]

/-! ## One member, then all members -/

theorem appendD_nil (e : ZipEntry) : e.appendD [] = e := by
  cases e
  simp [ZipEntry.appendD]

theorem appendD_appendD (e : ZipEntry) (a b : List Str) :
    (e.appendD a).appendD b = e.appendD (a ++ b) := by
  simp [ZipEntry.appendD]

theorem childBase_toList (zipRoot k : Str) (zf : ZipFile) (name : Str)
    (h : canonName zipRoot zf = some name) :
    (childBase zipRoot k zf).toList = if name ≠ [] ∧ dirNameOf name = k then [Base name] else [] := by
  unfold childBase
  rw [h]
  by_cases hc : name ≠ [] ∧ dirNameOf name = k <;> simp [hc]

/-- What one round of the loop does to the entry under any key `k`. -/
theorem lookup_indexMember {zipRoot : Str} {es es' : Entries} {zf : ZipFile}
    (h : indexMember zipRoot es zf = .ok es') (k : Str) :
    lookup es' k =
      match lookup es k with
      | some e => some (e.appendD (childBase zipRoot k zf).toList)
      | none =>
        if canonName zipRoot zf = some k then
          some ⟨k, kindOf zf, zf, (childBase zipRoot k zf).toList⟩
        else none := by
  unfold indexMember at h
  cases hc : classify zf.Mode with
  | none => simp [hc] at h
  | some kind =>
    simp only [hc] at h
    have hkind : kindOf zf = kind := by simp [kindOf, hc]
    by_cases hr : isRooted (cleanupName zf.Name) zipRoot = true
    · have hcan : canonName zipRoot zf = some (stripRoot (cleanupName zf.Name) zipRoot) := by
        simp [canonName, hr]
      have hcb := childBase_toList zipRoot k zf _ hcan
      generalize stripRoot (cleanupName zf.Name) zipRoot = name at h hcan hcb
      simp only [hr, Bool.not_true, Bool.false_eq_true, ↓reduceIte] at h
      rw [hcb, hcan]
      cases hl : lookup es name with
      | some entry =>
        simp only [hl] at h
        by_cases hk : entry.K = kind
        · simp only [hk, ne_eq, not_true_eq_false, ↓reduceIte, Except.ok.injEq] at h
          subst h
          rw [lookup_addChild]
          cases hlk : lookup es k with
          | some e => simp
          | none =>
            have : name ≠ k := by
              intro hnk
              subst hnk
              simp [hl] at hlk
            simp [this]
        · simp [hk] at h
      | none =>
        simp only [hl, Except.ok.injEq] at h
        subst h
        rw [lookup_addChild, lookup_store]
        cases hlk : lookup es k with
        | some e =>
          have : name ≠ k := by
            intro hnk
            subst hnk
            simp [hl] at hlk
          simp [this]
        | none =>
          by_cases hnk : name = k
          · subst hnk
            simp [ZipEntry.appendD, hkind]
          · simp [hnk]
    · have hcan : canonName zipRoot zf = none := by
        simp [canonName, hr]
      simp only [hr, Bool.not_false, ↓reduceIte, Except.ok.injEq] at h
      subst h
      have hcb : childBase zipRoot k zf = none := by simp [childBase, hcan]
      rw [hcb, hcan]
      cases hlk : lookup es k <;> simp [appendD_nil]

theorem filterMap_cons_toList {α β : Type} (f : α → Option β) (a : α) (l : List α) :
    (a :: l).filterMap f = (f a).toList ++ l.filterMap f := by
  cases h : f a <;> simp [List.filterMap_cons, h]

theorem membersFrom_cons_eq {zipRoot k : Str} {m : ZipFile} (t : List ZipFile)
    (h : canonName zipRoot m = some k) : membersFrom zipRoot k (m :: t) = m :: t := by
  simp [membersFrom, List.dropWhile_cons, h]

theorem membersFrom_cons_ne {zipRoot k : Str} {m : ZipFile} (t : List ZipFile)
    (h : canonName zipRoot m ≠ some k) :
    membersFrom zipRoot k (m :: t) = membersFrom zipRoot k t := by
  simp [membersFrom, List.dropWhile_cons, h]

/-- What the whole loop does to the entry under any key `k`: an entry that
was there collects the base names of all its children among the members; an
entry that was not is made from the first member with canonical name `k` and
collects the children from that member on. -/
theorem lookup_indexAll {zipRoot : Str} (ms : List ZipFile) :
    ∀ {es es' : Entries}, indexAll zipRoot es ms = .ok es' → ∀ k : Str,
      lookup es' k =
        match lookup es k with
        | some e => some (e.appendD (ms.filterMap (childBase zipRoot k)))
        | none =>
          match membersFrom zipRoot k ms with
          | [] => none
          | m :: rest => some ⟨k, kindOf m, m, (m :: rest).filterMap (childBase zipRoot k)⟩ := by
  induction ms with
  | nil =>
    intro es es' h k
    simp only [indexAll, Except.ok.injEq] at h
    subst h
    cases hl : lookup es k <;> simp [appendD_nil, membersFrom]
  | cons m t ih =>
    intro es es' h k
    unfold indexAll at h
    cases hstep : indexMember zipRoot es m with
    | error p => simp [hstep] at h
    | ok es1 =>
      simp only [hstep] at h
      have h1 := lookup_indexMember hstep k
      have h2 := ih h k
      rw [h2, h1]
      cases hl : lookup es k with
      | some e =>
        simp only [appendD_appendD, filterMap_cons_toList]
      | none =>
        by_cases hc : canonName zipRoot m = some k
        · simp only [hc, ↓reduceIte, membersFrom_cons_eq t hc]
          simp [ZipEntry.appendD, filterMap_cons_toList]
        · simp only [hc, ↓reduceIte, membersFrom_cons_ne t hc]

/-- The index `New` builds, key by key. -/
theorem lookup_New {ms : List ZipFile} {fsRoot zipRoot cwd : Str} {zfs : ZipFS}
    (h : New (.ok ms) fsRoot zipRoot cwd = .ok zfs) (k : Str) :
    lookup zfs.entries k =
      match membersFrom (cleanupName zipRoot) k ms with
      | [] => none
      | m :: rest =>
        some ⟨k, kindOf m, m, (m :: rest).filterMap (childBase (cleanupName zipRoot) k)⟩ := by
  unfold New at h
  simp only at h
  cases hall : indexAll (cleanupName zipRoot) [] ms with
  | error p => simp [hall] at h
  | ok es =>
    simp only [hall, Except.ok.injEq] at h
    subst h
    simpa [lookup] using lookup_indexAll ms hall k

/-! ## Strings and paths -/

/-- The model of `filepath.Clean`, `filepath.Dir` and `filepath.Base` on
inputs whose results the Go documentation and tests give. -/
theorem filepath_vectors :
    Clean "abc//def//ghi".toList = "abc/def/ghi".toList ∧
      Clean "abc/def/../ghi/../jkl".toList = "abc/jkl".toList ∧
      Clean "/../abc".toList = "/abc".toList ∧
      Clean "abc/../../././../def".toList = "../../def".toList ∧
      Clean "abc/./../def".toList = "def".toList ∧
      Clean "".toList = ".".toList ∧
      Clean "/".toList = "/".toList ∧
      Clean "abc/".toList = "abc".toList ∧
      Clean "../../abc".toList = "../../abc".toList ∧
      Clean "/abc/def/../../..".toList = "/".toList ∧
      Dir "/foo/bar/baz.js".toList = "/foo/bar".toList ∧
      Dir "lib".toList = ".".toList ∧
      Dir "/".toList = "/".toList ∧
      Base "/foo/bar/baz.js".toList = "baz.js".toList ∧
      Base "a/b/".toList = "b".toList ∧
      Base "///".toList = "/".toList ∧
      Base "".toList = ".".toList := by
  decide

/-- The canonicalizer on sample names. -/
theorem canonicalizer_vectors :
    cleanupName "pkg/".toList = "pkg".toList ∧
      cleanupName "./pkg/lib/".toList = "pkg/lib".toList ∧
      cleanupName "/pkg//lib".toList = "pkg/lib".toList ∧
      isRooted "abcd".toList "abc".toList = false ∧
      isRooted "abc/d".toList "abc".toList = true ∧
      isRooted "abc".toList "abc".toList = true ∧
      stripRoot "abc/d".toList "abc".toList = "d".toList ∧
      stripRoot "abc".toList "abc".toList = [] := by
  decide

theorem hasPrefix_append (r x : Str) : hasPrefix (r ++ x) r = true := by
  simp [hasPrefix]

theorem hasPrefix_self (r : Str) : hasPrefix r r = true := by
  simp [hasPrefix]

theorem trimPrefix_append (r x : Str) : trimPrefix (r ++ x) r = x := by
  simp [trimPrefix, hasPrefix_append]

theorem trimLeftSlash_idem (s : Str) : trimLeftSlash (trimLeftSlash s) = trimLeftSlash s := by
  induction s with
  | nil => rfl
  | cons c cs ih =>
    by_cases hc : c = '/'
    · subst hc
      simpa [trimLeftSlash, List.dropWhile_cons] using ih
    · simp [trimLeftSlash, List.dropWhile_cons, hc]

theorem trimLeftSlash_slash (s : Str) : trimLeftSlash ('/' :: s) = trimLeftSlash s := by
  simp [trimLeftSlash, List.dropWhile_cons]

theorem trimLeftSlash_stripRoot (name root : Str) :
    trimLeftSlash (stripRoot name root) = stripRoot name root := by
  simp [stripRoot, trimLeftSlash_idem]

/-- A canonical name has no leading `/`. -/
theorem trimLeftSlash_canonName {zipRoot : Str} {zf : ZipFile} {p : Str}
    (h : canonName zipRoot zf = some p) : trimLeftSlash p = p := by
  unfold canonName at h
  by_cases hr : isRooted (cleanupName zf.Name) zipRoot = true
  · simp only [hr, ↓reduceIte, Option.some.injEq] at h
    subst h
    exact trimLeftSlash_stripRoot _ _
  · simp [hr] at h

/-- The path of a canonical name under the mount root strips back to it. -/
theorem stripRoot_mount (root p : Str) (hp : trimLeftSlash p = p) :
    stripRoot (root ++ '/' :: p) root = p := by
  simp [stripRoot, trimPrefix_append, trimLeftSlash_slash, hp]

theorem stripRoot_self (root : Str) : stripRoot root root = [] := by
  simp [stripRoot, trimPrefix, hasPrefix_self, trimLeftSlash]

theorem head_ne_slash {p : Str} (hp : trimLeftSlash p = p) (hne : p ≠ []) :
    ∃ c rest, p = c :: rest ∧ c ≠ '/' := by
  cases p with
  | nil => exact absurd rfl hne
  | cons c rest =>
    refine ⟨c, rest, rfl, ?_⟩
    intro hc
    subst hc
    rw [trimLeftSlash_slash] at hp
    have hlen : (trimLeftSlash rest).length ≤ rest.length := by
      unfold trimLeftSlash
      exact (List.dropWhile_sublist _).length_le
    rw [hp] at hlen
    simp at hlen

/-- The base name of a non-empty name without a leading `/` contains no `/`. -/
theorem Base_no_slash {p : Str} (hp : trimLeftSlash p = p) (hne : p ≠ []) : '/' ∉ Base p := by
  obtain ⟨c, rest, hpe, hc⟩ := head_ne_slash hp hne
  unfold Base
  simp only [hne, ↓reduceIte]
  have hmem : ∀ x ∈ ((trimRightSlash p).reverse.takeWhile (fun c => c != '/')).reverse, x ≠ '/' := by
    intro x hx
    rw [List.mem_reverse] at hx
    have := List.mem_takeWhile_imp hx
    simpa using this
  by_cases hl : ((trimRightSlash p).reverse.takeWhile (fun c => c != '/')).reverse = []
  · exfalso
    have hrev : (trimRightSlash p).reverse = p.reverse.dropWhile (fun c => c == '/') := by
      simp [trimRightSlash, trimLeftSlash]
    rw [hrev] at hl
    have hdne : p.reverse.dropWhile (fun c => c == '/') ≠ [] := by
      intro hd
      rw [List.dropWhile_eq_nil_iff] at hd
      have := hd c (by simp [hpe])
      simp [hc] at this
    cases hd : p.reverse.dropWhile (fun c => c == '/') with
    | nil => exact hdne hd
    | cons a t =>
      have ha := List.head_dropWhile_not (fun c => c == '/') p.reverse hdne
      simp only [hd, List.head_cons] at ha
      rw [hd] at hl
      simp only [List.takeWhile_cons, bne_iff_ne, ne_eq, List.reverse_eq_nil_iff] at hl
      have ha2 : a ≠ '/' := by simpa using ha
      simp [ha2] at hl
  · simp only [hl, ↓reduceIte]
    intro hin
    exact hmem _ hin rfl

/-! ## Kinds and modes -/

theorem New_ok {ms : List ZipFile} {fsRoot zipRoot cwd : Str} {zfs : ZipFS}
    (h : New (.ok ms) fsRoot zipRoot cwd = .ok zfs) :
    indexAll (cleanupName zipRoot) [] ms = .ok zfs.entries ∧ zfs.root = fsRoot ∧
      zfs.rootDir = Dir fsRoot ∧ zfs.cwd = cwd := by
  unfold New at h
  simp only at h
  cases hall : indexAll (cleanupName zipRoot) [] ms with
  | error p => simp [hall] at h
  | ok es =>
    simp only [hall, Except.ok.injEq] at h
    subst h
    exact ⟨rfl, rfl, rfl, rfl⟩

theorem indexMember_classified {zipRoot : Str} {es es' : Entries} {zf : ZipFile}
    (h : indexMember zipRoot es zf = .ok es') : classify zf.Mode ≠ none := by
  intro hc
  simp [indexMember, hc] at h

theorem indexAll_classified {zipRoot : Str} (ms : List ZipFile) :
    ∀ {es es' : Entries}, indexAll zipRoot es ms = .ok es' →
      ∀ m ∈ ms, classify m.Mode ≠ none := by
  induction ms with
  | nil => intro es es' _ m hm; simp at hm
  | cons a t ih =>
    intro es es' h m hm
    unfold indexAll at h
    cases hstep : indexMember zipRoot es a with
    | error p => simp [hstep] at h
    | ok es1 =>
      simp only [hstep] at h
      rcases List.mem_cons.mp hm with rfl | hmt
      · exact indexMember_classified hstep
      · exact ih h m hmt

/-- After its round of the loop, the entry under a member's canonical name
has the member's kind. -/
theorem indexMember_kind {zipRoot : Str} {es es' : Entries} {zf : ZipFile} {k : Str}
    (h : indexMember zipRoot es zf = .ok es') (hc : canonName zipRoot zf = some k) :
    ∃ e, lookup es' k = some e ∧ e.K = kindOf zf := by
  have hl := lookup_indexMember h k
  unfold indexMember at h
  cases hcl : classify zf.Mode with
  | none => simp [hcl] at h
  | some kind =>
    have hkind : kindOf zf = kind := by simp [kindOf, hcl]
    unfold canonName at hc
    by_cases hr : isRooted (cleanupName zf.Name) zipRoot = true
    · simp only [hr, ↓reduceIte, Option.some.injEq] at hc
      simp only [hcl, hr, Bool.not_true, Bool.false_eq_true, ↓reduceIte, hc] at h
      cases hlk : lookup es k with
      | some entry =>
        simp only [hlk] at h hl
        by_cases hk : entry.K = kind
        · exact ⟨_, hl, by simp [ZipEntry.appendD, hk, hkind]⟩
        · simp [hk] at h
      | none =>
        have hcan : canonName zipRoot zf = some k := by simp [canonName, hr, hc]
        simp only [hlk, hcan, ↓reduceIte] at hl
        exact ⟨_, hl, rfl⟩
    · simp [hr] at hc

theorem indexAll_keeps_kind {zipRoot : Str} {ms : List ZipFile} {es es' : Entries} {k : Str}
    {e : ZipEntry} (h : indexAll zipRoot es ms = .ok es') (hl : lookup es k = some e) :
    ∃ e', lookup es' k = some e' ∧ e'.K = e.K := by
  have := lookup_indexAll ms h k
  rw [hl] at this
  exact ⟨_, this, rfl⟩

theorem indexAll_kind {zipRoot : Str} (ms : List ZipFile) :
    ∀ {es es' : Entries}, indexAll zipRoot es ms = .ok es' →
      ∀ m ∈ ms, ∀ k, canonName zipRoot m = some k →
        ∃ e, lookup es' k = some e ∧ e.K = kindOf m := by
  induction ms with
  | nil => intro es es' _ m hm; simp at hm
  | cons a t ih =>
    intro es es' h m hm k hc
    unfold indexAll at h
    cases hstep : indexMember zipRoot es a with
    | error p => simp [hstep] at h
    | ok es1 =>
      simp only [hstep] at h
      rcases List.mem_cons.mp hm with rfl | hmt
      · obtain ⟨e1, he1, hk1⟩ := indexMember_kind hstep hc
        obtain ⟨e', he', hk'⟩ := indexAll_keeps_kind h he1
        exact ⟨e', he', hk'.trans hk1⟩
      · exact ih h m hmt k hc

theorem land_ModeDir (mode : Nat) : mode &&& ModeDir = (mode &&& ModeType) &&& ModeDir := by
  have h : ModeType &&& ModeDir = ModeDir := by decide
  rw [Nat.land_assoc, h]

/-- For a mode `New` accepts, the directory bit is set exactly when the kind
is `dir`. -/
theorem isDir_iff_kind {mode : Nat} {k : Kind} (h : classify mode = some k) :
    (mode &&& ModeDir != 0) = true ↔ k = Kind.dir := by
  unfold classify at h
  rw [land_ModeDir]
  by_cases h0 : mode &&& ModeType = 0
  · simp only [h0, ↓reduceIte, Option.some.injEq] at h
    subst h
    simp [h0]
  · by_cases h1 : mode &&& ModeType = ModeDir
    · have hd0 : ¬ ModeDir = 0 := by decide
      simp only [h1, hd0, ↓reduceIte, Option.some.injEq] at h
      subst h
      rw [h1]
      decide
    · by_cases h2 : mode &&& ModeType = ModeSymlink
      · have hs0 : ¬ ModeSymlink = 0 := by decide
        have hsd : ¬ ModeSymlink = ModeDir := by decide
        simp only [h2, hs0, hsd, ↓reduceIte, Option.some.injEq] at h
        subst h
        rw [h2]
        decide
      · simp [h0, h1, h2] at h

/-! ## The first member of a canonical name -/

theorem membersBefore_append_membersFrom (zipRoot k : Str) (ms : List ZipFile) :
    membersBefore zipRoot k ms ++ membersFrom zipRoot k ms = ms := by
  simp [membersBefore, membersFrom, List.takeWhile_append_dropWhile]

theorem mem_of_mem_membersFrom {zipRoot k : Str} {ms : List ZipFile} {m : ZipFile}
    (h : m ∈ membersFrom zipRoot k ms) : m ∈ ms :=
  (List.dropWhile_sublist _).subset h

theorem not_canon_of_mem_membersBefore {zipRoot k : Str} {ms : List ZipFile} {m : ZipFile}
    (h : m ∈ membersBefore zipRoot k ms) : canonName zipRoot m ≠ some k := by
  have := List.mem_takeWhile_imp h
  simpa using this

/-- When the list splits at the first member with canonical name `k`,
`membersBefore` and `membersFrom` are the two parts. -/
theorem members_of_split {zipRoot k : Str} {pre post : List ZipFile} {m0 : ZipFile}
    (hpre : ∀ x ∈ pre, canonName zipRoot x ≠ some k) (hm0 : canonName zipRoot m0 = some k) :
    membersBefore zipRoot k (pre ++ m0 :: post) = pre ∧
      membersFrom zipRoot k (pre ++ m0 :: post) = m0 :: post := by
  induction pre with
  | nil => simp [membersBefore, membersFrom, List.takeWhile_cons, List.dropWhile_cons, hm0]
  | cons a t ih =>
    have ha : canonName zipRoot a ≠ some k := hpre a (by simp)
    have ht := ih (fun x hx => hpre x (by simp [hx]))
    simp only [membersBefore, membersFrom] at ht ⊢
    rw [List.cons_append, List.takeWhile_cons, List.dropWhile_cons]
    simp only [ne_eq, ha, not_false_eq_true, decide_True, ↓reduceIte]
    exact ⟨by rw [ht.1], ht.2⟩

/-- A member with canonical name `k` gives the list a first such member. -/
theorem first_member_split {zipRoot k : Str} {ms : List ZipFile} {m : ZipFile}
    (hm : m ∈ ms) (hc : canonName zipRoot m = some k) :
    ∃ pre m0 post, ms = pre ++ m0 :: post ∧ (∀ x ∈ pre, canonName zipRoot x ≠ some k) ∧
      canonName zipRoot m0 = some k ∧ membersFrom zipRoot k ms = m0 :: post := by
  have hne : membersFrom zipRoot k ms ≠ [] := by
    intro hnil
    unfold membersFrom at hnil
    rw [List.dropWhile_eq_nil_iff] at hnil
    have := hnil m hm
    simp [hc] at this
  cases hf : membersFrom zipRoot k ms with
  | nil => exact absurd hf hne
  | cons m0 post =>
    have hhead := List.head_dropWhile_not (fun m => decide (canonName zipRoot m ≠ some k)) ms hne
    have hdrop : ms.dropWhile (fun m => decide (canonName zipRoot m ≠ some k)) = m0 :: post := hf
    simp only [hdrop, List.head_cons] at hhead
    have hm0 : canonName zipRoot m0 = some k := by simpa using hhead
    refine ⟨membersBefore zipRoot k ms, m0, post, ?_, ?_, hm0, rfl⟩
    · rw [← hf, membersBefore_append_membersFrom]
    · intro x hx
      exact not_canon_of_mem_membersBefore hx

theorem childBase_no_slash {zipRoot d : Str} {m : ZipFile} {b : Str}
    (h : childBase zipRoot d m = some b) : '/' ∉ b := by
  unfold childBase at h
  cases hc : canonName zipRoot m with
  | none => simp [hc] at h
  | some name =>
    simp only [hc] at h
    by_cases hcond : name ≠ [] ∧ dirNameOf name = d
    · rw [if_pos hcond] at h
      have hb := Option.some.inj h
      subst hb
      exact Base_no_slash (trimLeftSlash_canonName hc) hcond.1
    · simp [hcond] at h

/-- The entry `New` files under the canonical name of a member. -/
theorem New_entry_of_member {ms : List ZipFile} {fsRoot zipRoot cwd : Str} {zfs : ZipFS}
    {m : ZipFile} {k : Str} (h : New (.ok ms) fsRoot zipRoot cwd = .ok zfs) (hm : m ∈ ms)
    (hc : canonName (cleanupName zipRoot) m = some k) :
    ∃ pre m0 post, ms = pre ++ m0 :: post ∧
      (∀ x ∈ pre, canonName (cleanupName zipRoot) x ≠ some k) ∧
      canonName (cleanupName zipRoot) m0 = some k ∧
      kindOf m0 = kindOf m ∧ classify m.Mode = some (kindOf m) ∧
      lookup zfs.entries k =
        some ⟨k, kindOf m0, m0, (m0 :: post).filterMap (childBase (cleanupName zipRoot) k)⟩ := by
  obtain ⟨pre, m0, post, hsplit, hpre, hm0, hfrom⟩ := first_member_split hm hc
  have hl := lookup_New h k
  rw [hfrom] at hl
  obtain ⟨e, he, hk⟩ := indexAll_kind ms (New_ok h).1 m hm k hc
  rw [hl] at he
  have hkk : kindOf m0 = kindOf m := by
    have := Option.some.inj he
    rw [← this] at hk
    exact hk
  have hcl : classify m.Mode = some (kindOf m) := by
    have := indexAll_classified ms (New_ok h).1 m hm
    unfold kindOf
    cases hcm : classify m.Mode with
    | none => exact absurd hcm this
    | some kk => rfl
  exact ⟨pre, m0, post, hsplit, hpre, hm0, hkk, hcl, hl⟩

/-! ## C1: round trip through the index -/

/-- C1 (as stated) fails: the archive lists `pkg/a.js` twice; the second
member is a file under the in-archive root with canonical name `a.js`, `New`
succeeds, and with every member opening `Open` of `/m/a.js` streams the bytes
of the first member, not those of the second.  Also, `New` succeeds on
`rootlessArchive` whatever opening its member will give, and when
`(*zip.File).Open` fails on the member, `Open` of `/m/a.js` fails with that
error. -/
theorem open_roundtrip_counterexample :
    New (.ok dupArchive) "/m".toList "pkg/".toList "/".toList = .ok dupFS ∧
      (⟨"pkg/a.js".toList, fileMode, [2]⟩ : ZipFile) ∈ dupArchive ∧
      classify fileMode = some Kind.fil ∧
      canonName (cleanupName "pkg/".toList) ⟨"pkg/a.js".toList, fileMode, [2]⟩ =
        some "a.js".toList ∧
      Open noRealFS (fun _ => none) dupFS ("/m".toList ++ '/' :: "a.js".toList) = .ok [1] ∧
      ([1] : List Nat) ≠ [2] ∧
      New (.ok rootlessArchive) "/m".toList "pkg/".toList "/".toList = .ok rootlessFS ∧
      canonName (cleanupName "pkg/".toList) ⟨"pkg/a.js".toList, fileMode, [1]⟩ =
        some "a.js".toList ∧
      Open noRealFS (fun _ => some "zip: unsupported compression algorithm".toList) rootlessFS
        ("/m".toList ++ '/' :: "a.js".toList) =
          .error (Error.zip "zip: unsupported compression algorithm".toList) := by
  decide

/-- C1 (amended): for a file member `m` under the in-archive root with
canonical name `p`, when `New` succeeds, `Open` of the mount root followed by
`/` and `p` returns what opening the first member in archive order whose
canonical name is `p` returns: the stream of that member's stored bytes when
it opens, the error of its `Open()` when it does not. -/
theorem open_roundtrip_first_member (os : RealFS) (zipErr : ZipFile → Option Str)
    (ms : List ZipFile) (fsRoot zipRoot cwd : Str) (zfs : ZipFS) (m : ZipFile) (p : Str)
    (hnew : New (.ok ms) fsRoot zipRoot cwd = .ok zfs) (hm : m ∈ ms)
    (hfile : classify m.Mode = some Kind.fil)
    (hp : canonName (cleanupName zipRoot) m = some p) :
    ∃ pre m0 post, ms = pre ++ m0 :: post ∧
      (∀ x ∈ pre, canonName (cleanupName zipRoot) x ≠ some p) ∧
      canonName (cleanupName zipRoot) m0 = some p ∧
      Open os zipErr zfs (fsRoot ++ '/' :: p) = openMember zipErr m0 ∧
      (zipErr m0 = none → Open os zipErr zfs (fsRoot ++ '/' :: p) = .ok m0.Ctnt) ∧
      (∀ msg, zipErr m0 = some msg →
        Open os zipErr zfs (fsRoot ++ '/' :: p) = .error (Error.zip msg)) := by
  obtain ⟨pre, m0, post, hsplit, hpre, hm0, hkk, hcl, hl⟩ := New_entry_of_member hnew hm hp
  have hkind : kindOf m0 = Kind.fil := by
    rw [hkk]
    rw [hfile] at hcl
    exact (Option.some.inj hcl).symm
  have hopen : Open os zipErr zfs (fsRoot ++ '/' :: p) = openMember zipErr m0 := by
    unfold Open
    rw [(New_ok hnew).2.1]
    simp only [hasPrefix_append, Bool.not_true, Bool.false_eq_true, ↓reduceIte,
      stripRoot_mount fsRoot p (trimLeftSlash_canonName hp), hl, hkind, ne_eq,
      not_true_eq_false]
  refine ⟨pre, m0, post, hsplit, hpre, hm0, hopen, ?_, ?_⟩
  · intro h
    rw [hopen]
    simp [openMember, h]
  · intro msg h
    rw [hopen]
    simp [openMember, h]

/-- The amended C1 at `dupArchive`, for its second member, when every member
opens. -/
theorem open_roundtrip_first_member_witness :
    ∃ pre m0 post, dupArchive = pre ++ m0 :: post ∧
      (∀ x ∈ pre, canonName (cleanupName "pkg/".toList) x ≠ some "a.js".toList) ∧
      canonName (cleanupName "pkg/".toList) m0 = some "a.js".toList ∧
      Open noRealFS (fun _ => none) dupFS ("/m".toList ++ '/' :: "a.js".toList) =
        openMember (fun _ => none) m0 ∧
      ((fun _ => none : ZipFile → Option Str) m0 = none →
        Open noRealFS (fun _ => none) dupFS ("/m".toList ++ '/' :: "a.js".toList) =
          .ok m0.Ctnt) ∧
      (∀ msg, (fun _ => none : ZipFile → Option Str) m0 = some msg →
        Open noRealFS (fun _ => none) dupFS ("/m".toList ++ '/' :: "a.js".toList) =
          .error (Error.zip msg)) :=
  open_roundtrip_first_member noRealFS (fun _ => none) dupArchive "/m".toList "pkg/".toList
    "/".toList dupFS ⟨"pkg/a.js".toList, fileMode, [2]⟩ "a.js".toList (by decide) (by decide)
    (by decide) (by decide)

/-! ## C2 and C4: directory listings -/

/-- An entry of the index `New` builds comes from the first member with its
key as canonical name, and holds the children listed from that member on. -/
theorem New_lookup_some {ms : List ZipFile} {fsRoot zipRoot cwd : Str} {zfs : ZipFS}
    {k : Str} {e : ZipEntry} (h : New (.ok ms) fsRoot zipRoot cwd = .ok zfs)
    (he : lookup zfs.entries k = some e) :
    ∃ m0 post, ms = membersBefore (cleanupName zipRoot) k ms ++ m0 :: post ∧
      canonName (cleanupName zipRoot) m0 = some k ∧
      classify m0.Mode = some (kindOf m0) ∧
      e = ⟨k, kindOf m0, m0, (m0 :: post).filterMap (childBase (cleanupName zipRoot) k)⟩ := by
  have hl := lookup_New h k
  rw [he] at hl
  cases hf : membersFrom (cleanupName zipRoot) k ms with
  | nil => simp [hf] at hl
  | cons m0 post =>
    simp only [hf, Option.some.injEq] at hl
    have hne : membersFrom (cleanupName zipRoot) k ms ≠ [] := by simp [hf]
    have hhead := List.head_dropWhile_not
      (fun m => decide (canonName (cleanupName zipRoot) m ≠ some k)) ms hne
    have hdrop : ms.dropWhile (fun m => decide (canonName (cleanupName zipRoot) m ≠ some k)) =
        m0 :: post := hf
    simp only [hdrop, List.head_cons] at hhead
    have hm0 : canonName (cleanupName zipRoot) m0 = some k := by simpa using hhead
    have hsplit : ms = membersBefore (cleanupName zipRoot) k ms ++ m0 :: post := by
      rw [← hf, membersBefore_append_membersFrom]
    have hmem : m0 ∈ ms := by
      rw [hsplit]
      simp
    have hcl : classify m0.Mode = some (kindOf m0) := by
      have := indexAll_classified ms (New_ok h).1 m0 hmem
      unfold kindOf
      cases hcm : classify m0.Mode with
      | none => exact absurd hcm this
      | some kk => rfl
    exact ⟨m0, post, hsplit, hm0, hcl, hl⟩

theorem filterMap_none {α β : Type} (f : α → Option β) (l : List α)
    (h : ∀ x ∈ l, f x = none) : l.filterMap f = [] := by
  induction l with
  | nil => rfl
  | cons a t ih =>
    have ha : f a = none := h a (by simp)
    rw [List.filterMap_cons_none ha]
    exact ih (fun x hx => h x (by simp [hx]))

/-- C2 (as stated) fails: `reversedArchive` is a permutation of
`scenarioArchive`, `New` succeeds on both, `pkg/lib/index.js` is a member
whose parent directory is `lib`, and `Readdirnames` of the directory `lib`
returns `index.js` for one order and nothing for the other. -/
theorem readdirnames_order_counterexample :
    List.Perm scenarioArchive reversedArchive ∧
      New (.ok scenarioArchive) "/proj/node_modules/pkg".toList "pkg/".toList "/proj".toList =
        .ok scenarioFS ∧
      New (.ok reversedArchive) "/proj/node_modules/pkg".toList "pkg/".toList "/proj".toList =
        .ok reversedFS ∧
      childBase (cleanupName "pkg/".toList) "lib".toList
        ⟨"pkg/lib/index.js".toList, fileMode, [105, 59]⟩ = some "index.js".toList ∧
      Readdirnames noRealFS scenarioFS "/proj/node_modules/pkg/lib".toList =
        .ok ["index.js".toList] ∧
      Readdirnames noRealFS reversedFS "/proj/node_modules/pkg/lib".toList = .ok [] := by
  refine ⟨List.Perm.swap _ _ _, ?_, ?_, ?_, ?_, ?_⟩ <;> decide

/-- C2 (amended): when `New` succeeds and `d0` is the first member whose
canonical name is the directory `d`, `Readdirnames` of `d` under the mount
root returns the base names of the members whose parent directory is `d`
among the members listed from `d0` on, in archive order; members listed
before `d0` are left out, so the result depends on the order of the members. -/
theorem readdirnames_children_after_directory (os : RealFS) (pre post : List ZipFile)
    (d0 : ZipFile) (fsRoot zipRoot cwd : Str) (zfs : ZipFS) (d : Str)
    (hnew : New (.ok (pre ++ d0 :: post)) fsRoot zipRoot cwd = .ok zfs)
    (hpre : ∀ x ∈ pre, canonName (cleanupName zipRoot) x ≠ some d)
    (hd0 : canonName (cleanupName zipRoot) d0 = some d)
    (hdir : classify d0.Mode = some Kind.dir) :
    Readdirnames os zfs (fsRoot ++ '/' :: d) =
      .ok ((d0 :: post).filterMap (childBase (cleanupName zipRoot) d)) := by
  have hl := lookup_New hnew d
  rw [(members_of_split hpre hd0).2] at hl
  have hkind : kindOf d0 = Kind.dir := by simp [kindOf, hdir]
  unfold Readdirnames
  rw [(New_ok hnew).2.1]
  simp only [hasPrefix_append, Bool.not_true, Bool.false_eq_true, ↓reduceIte,
    stripRoot_mount fsRoot d (trimLeftSlash_canonName hd0), hl, hkind, ne_eq, not_true_eq_false]

/-- The amended C2 at `reversedArchive`: the directory `lib` comes last, so
nothing is listed. -/
theorem readdirnames_children_after_directory_witness :
    New (.ok reversedArchive) "/proj/node_modules/pkg".toList "pkg/".toList "/proj".toList =
        .ok reversedFS ∧
      Readdirnames noRealFS reversedFS ("/proj/node_modules/pkg".toList ++ '/' :: "lib".toList) =
        .ok (([⟨"pkg/lib/".toList, dirMode, []⟩] : List ZipFile).filterMap
          (childBase (cleanupName "pkg/".toList) "lib".toList)) :=
  ⟨by decide,
    readdirnames_children_after_directory noRealFS
      [⟨"pkg/lib/index.js".toList, fileMode, [105, 59]⟩] [] ⟨"pkg/lib/".toList, dirMode, []⟩
      "/proj/node_modules/pkg".toList "pkg/".toList "/proj".toList reversedFS "lib".toList
      (by decide) (by decide) (by decide) (by decide)⟩

/-- C4: when `New` succeeds and no member whose parent directory is `d` is
listed before the first member of the directory `d` itself, the children list
of the entry of `d` is exactly the list of base names of the members whose
parent directory is `d`, in archive order, and `Readdirnames` of `d` under the
mount root returns that list. -/
theorem readdirnames_exact_parent_first (os : RealFS) (ms : List ZipFile)
    (fsRoot zipRoot cwd : Str) (zfs : ZipFS) (d : Str) (e : ZipEntry)
    (hnew : New (.ok ms) fsRoot zipRoot cwd = .ok zfs)
    (he : lookup zfs.entries d = some e) (hk : e.K = Kind.dir)
    (hfirst : ∀ m ∈ membersBefore (cleanupName zipRoot) d ms,
      childBase (cleanupName zipRoot) d m = none) :
    e.D = ms.filterMap (childBase (cleanupName zipRoot) d) ∧
      Readdirnames os zfs (fsRoot ++ '/' :: d) =
        .ok (ms.filterMap (childBase (cleanupName zipRoot) d)) := by
  obtain ⟨m0, post, hsplit, hm0, _, hentry⟩ := New_lookup_some hnew he
  have hD : e.D = ms.filterMap (childBase (cleanupName zipRoot) d) := by
    conv_rhs => rw [hsplit]
    rw [List.filterMap_append, filterMap_none _ _ hfirst, List.nil_append, hentry]
  refine ⟨hD, ?_⟩
  unfold Readdirnames
  rw [(New_ok hnew).2.1]
  simp only [hasPrefix_append, Bool.not_true, Bool.false_eq_true, ↓reduceIte,
    stripRoot_mount fsRoot d (trimLeftSlash_canonName hm0), he, hk, ne_eq, not_true_eq_false, hD]

/-- C4 at the scenario of the specification: members `pkg/lib/` and
`pkg/lib/index.js`, in-archive root `pkg/`, mounted at
`/proj/node_modules/pkg`; listing `lib` gives `index.js`. -/
theorem readdirnames_exact_parent_first_witness :
    New (.ok scenarioArchive) "/proj/node_modules/pkg".toList "pkg/".toList "/proj".toList =
        .ok scenarioFS ∧
      scenarioArchive.filterMap (childBase (cleanupName "pkg/".toList) "lib".toList) =
        ["index.js".toList] ∧
      Readdirnames noRealFS scenarioFS ("/proj/node_modules/pkg".toList ++ '/' :: "lib".toList) =
        .ok (scenarioArchive.filterMap (childBase (cleanupName "pkg/".toList) "lib".toList)) :=
  ⟨by decide, by decide,
    (readdirnames_exact_parent_first noRealFS scenarioArchive "/proj/node_modules/pkg".toList
      "pkg/".toList "/proj".toList scenarioFS "lib".toList
      ⟨"lib".toList, Kind.dir, ⟨"pkg/lib/".toList, dirMode, []⟩, ["index.js".toList]⟩
      (by decide) (by decide) (by decide) (by decide)).2⟩

/-! ## C3: routing between the archive and the real file system -/

/-- C3, the code at the failing input: with mount root `/a/b`, the sibling
path `/a/bc` is not rooted under the mount root, yet whatever the real file
system holds, `Open`, `Readdirnames` and `Stat` answer it from the index,
under the key `c`: `Open` returns what opening the member `pkg/c` returns
(its bytes when it opens), never the result of `os.Open`. -/
theorem sibling_path_served_from_archive :
    isRooted "/a/bc".toList "/a/b".toList = false ∧
      New (.ok siblingArchive) "/a/b".toList "pkg".toList "/".toList = .ok siblingFS ∧
      ∀ os : RealFS,
        Open os (fun _ => none) siblingFS "/a/bc".toList = .ok [7] ∧
        (∀ zipErr : ZipFile → Option Str,
          Open os zipErr siblingFS "/a/bc".toList =
            openMember zipErr ⟨"pkg/c".toList, fileMode, [7]⟩) ∧
        Readdirnames os siblingFS "/a/bc".toList = .error Error.ErrInvalid ∧
        Stat os siblingFS "/a/bc".toList = .ok ⟨"c".toList, fileMode⟩ := by
  exact ⟨by decide, by decide, fun os => ⟨rfl, fun _ => rfl, rfl, rfl⟩⟩

/-! ## C5: the mount root itself -/

/-- C5 (as stated) fails: `rootlessArchive` has a member under the in-archive
root `pkg/` but none for the root itself; `New` succeeds, and `Stat` and
`Readdirnames` of the mount root report not-found. -/
theorem mount_root_counterexample :
    New (.ok rootlessArchive) "/m".toList "pkg/".toList "/".toList = .ok rootlessFS ∧
      (⟨"pkg/a.js".toList, fileMode, [1]⟩ : ZipFile) ∈ rootlessArchive ∧
      canonName (cleanupName "pkg/".toList) ⟨"pkg/a.js".toList, fileMode, [1]⟩ =
        some "a.js".toList ∧
      Stat noRealFS rootlessFS "/m".toList = .error Error.ErrNotExist ∧
      Readdirnames noRealFS rootlessFS "/m".toList = .error Error.ErrNotExist := by
  decide

/-- C5 (amended): when `New` succeeds on an archive with a member whose
canonical name is the in-archive root itself (the empty name), a queried path
equal to the mount root is looked up under the empty canonical name, the
index has an entry there, `Stat` of the mount root returns the descriptor of
that entry's member and `Readdirnames` of the mount root does not report
not-found. -/
theorem mount_root_resolves (os : RealFS) (ms : List ZipFile) (fsRoot zipRoot cwd : Str)
    (zfs : ZipFS) (m : ZipFile)
    (hnew : New (.ok ms) fsRoot zipRoot cwd = .ok zfs) (hm : m ∈ ms)
    (hroot : canonName (cleanupName zipRoot) m = some []) :
    stripRoot fsRoot zfs.root = [] ∧
      ∃ e, lookup zfs.entries [] = some e ∧
        Stat os zfs fsRoot = .ok e.F.FileInfo ∧
        Readdirnames os zfs fsRoot ≠ .error Error.ErrNotExist := by
  obtain ⟨pre, m0, post, _, _, _, _, _, hl⟩ := New_entry_of_member hnew hm hroot
  have hr := (New_ok hnew).2.1
  rw [hr]
  refine ⟨stripRoot_self fsRoot, _, hl, ?_, ?_⟩
  · simp [Stat, hr, hasPrefix_self, stripRoot_self, hl]
  · unfold Readdirnames
    simp only [hr, hasPrefix_self, Bool.not_true, Bool.false_eq_true, ↓reduceIte, stripRoot_self,
      hl]
    by_cases hk : kindOf m0 = Kind.dir <;> simp [hk]

/-- The amended C5 at `rootedArchive`, whose first member is `pkg/`. -/
theorem mount_root_resolves_witness :
    New (.ok rootedArchive) "/m".toList "pkg/".toList "/".toList = .ok rootedFS ∧
      stripRoot "/m".toList rootedFS.root = [] ∧
      ∃ e, lookup rootedFS.entries [] = some e ∧
        Stat noRealFS rootedFS "/m".toList = .ok e.F.FileInfo ∧
        Readdirnames noRealFS rootedFS "/m".toList ≠ .error Error.ErrNotExist :=
  ⟨by decide,
    mount_root_resolves noRealFS rootedArchive "/m".toList "pkg/".toList "/".toList rootedFS
      ⟨"pkg/".toList, dirMode, []⟩ (by decide) (by decide) (by decide)⟩

/-! ## C6 and C7: the two panics of `New` -/

/-- C6: an archive with a member whose type bits are neither 0 nor
`ModeDir` nor `ModeSymlink` makes `New` fail, wherever the member lies. -/
theorem new_fails_on_unclassifiable (ms : List ZipFile) (fsRoot zipRoot cwd : Str)
    (m : ZipFile) (hm : m ∈ ms) (h0 : m.Mode &&& ModeType ≠ 0)
    (h1 : m.Mode &&& ModeType ≠ ModeDir) (h2 : m.Mode &&& ModeType ≠ ModeSymlink) :
    ∃ f, New (.ok ms) fsRoot zipRoot cwd = .error f := by
  have hc : classify m.Mode = none := by simp [classify, h0, h1, h2]
  cases hnew : New (.ok ms) fsRoot zipRoot cwd with
  | error f => exact ⟨f, rfl⟩
  | ok zfs => exact absurd hc (indexAll_classified ms (New_ok hnew).1 m hm)

/-- C6 at `pipeArchive`: the named pipe lies outside the in-archive root. -/
theorem new_fails_on_unclassifiable_witness :
    canonName (cleanupName "pkg/".toList) ⟨"other/fifo".toList, ModeNamedPipe + 420, []⟩ = none ∧
      ∃ f, New (.ok pipeArchive) "/m".toList "pkg/".toList "/".toList = .error f :=
  ⟨by decide,
    new_fails_on_unclassifiable pipeArchive "/m".toList "pkg/".toList "/".toList
      ⟨"other/fifo".toList, ModeNamedPipe + 420, []⟩ (by decide) (by decide) (by decide)
      (by decide)⟩

/-- C7: two members under the in-archive root with the same canonical name
and different kinds make `New` fail; and when `New` succeeds, the index holds
under the canonical name of every member one entry, of that name and of the
member's kind. -/
theorem new_fails_on_kind_collision (ms : List ZipFile) (fsRoot zipRoot cwd : Str) :
    (∀ m1 ∈ ms, ∀ m2 ∈ ms, ∀ k : Str,
        canonName (cleanupName zipRoot) m1 = some k →
        canonName (cleanupName zipRoot) m2 = some k →
        classify m1.Mode ≠ classify m2.Mode →
        ∃ f, New (.ok ms) fsRoot zipRoot cwd = .error f) ∧
      (∀ zfs, New (.ok ms) fsRoot zipRoot cwd = .ok zfs →
        ∀ m ∈ ms, ∀ k : Str, canonName (cleanupName zipRoot) m = some k →
          ∃ e, lookup zfs.entries k = some e ∧ e.Name = k ∧ classify m.Mode = some e.K) := by
  have key : ∀ zfs, New (.ok ms) fsRoot zipRoot cwd = .ok zfs →
      ∀ m ∈ ms, ∀ k : Str, canonName (cleanupName zipRoot) m = some k →
        ∃ e, lookup zfs.entries k = some e ∧ e.Name = k ∧ classify m.Mode = some e.K := by
    intro zfs hnew m hm k hc
    obtain ⟨pre, m0, post, _, _, _, hkk, hcl, hl⟩ := New_entry_of_member hnew hm hc
    exact ⟨_, hl, rfl, by rw [hcl, hkk]⟩
  refine ⟨?_, key⟩
  intro m1 hm1 m2 hm2 k hc1 hc2 hne
  cases hnew : New (.ok ms) fsRoot zipRoot cwd with
  | error f => exact ⟨f, rfl⟩
  | ok zfs =>
    exfalso
    obtain ⟨e1, he1, _, hk1⟩ := key zfs hnew m1 hm1 k hc1
    obtain ⟨e2, he2, _, hk2⟩ := key zfs hnew m2 hm2 k hc2
    rw [he1] at he2
    have := Option.some.inj he2
    subst this
    exact hne (hk1.trans hk2.symm)

/-- C7 at `collisionArchive`: the file `pkg/x` and the directory `pkg/x/`
both have the canonical name `x`. -/
theorem new_fails_on_kind_collision_witness :
    canonName (cleanupName "pkg/".toList) ⟨"pkg/x".toList, fileMode, [1]⟩ = some "x".toList ∧
      canonName (cleanupName "pkg/".toList) ⟨"pkg/x/".toList, dirMode, []⟩ = some "x".toList ∧
      ∃ f, New (.ok collisionArchive) "/m".toList "pkg/".toList "/".toList = .error f :=
  ⟨by decide, by decide,
    (new_fails_on_kind_collision collisionArchive "/m".toList "pkg/".toList "/".toList).1
      ⟨"pkg/x".toList, fileMode, [1]⟩ (by decide) ⟨"pkg/x/".toList, dirMode, []⟩ (by decide)
      "x".toList (by decide) (by decide) (by decide)⟩

/-! ## C8, C9, C10: the operations inside the mount root -/

/-- C8: for a path that `Open` answers from the archive, with canonical key
`k`: not-found exactly when `k` is absent from the index, invalid-target
exactly when `k` is present with kind directory or symlink, and for a file
entry the result of opening its backing member (the stream of its bytes, or
the error of its `Open()`); the member of a directory or symlink entry is
never opened, whatever opening it would give. -/
theorem open_three_way (os : RealFS) (zipErr : ZipFile → Option Str) (zfs : ZipFS)
    (name : Str) (hin : hasPrefix name zfs.root = true) :
    (Open os zipErr zfs name = .error Error.ErrNotExist ↔
        lookup zfs.entries (stripRoot name zfs.root) = none) ∧
      (Open os zipErr zfs name = .error Error.ErrInvalid ↔
        ∃ e, lookup zfs.entries (stripRoot name zfs.root) = some e ∧
          (e.K = Kind.dir ∨ e.K = Kind.sym)) ∧
      (∀ e, lookup zfs.entries (stripRoot name zfs.root) = some e → e.K = Kind.fil →
        Open os zipErr zfs name = openMember zipErr e.F ∧
        (zipErr e.F = none → Open os zipErr zfs name = .ok e.F.Ctnt) ∧
        (∀ msg, zipErr e.F = some msg → Open os zipErr zfs name = .error (Error.zip msg))) ∧
      (∀ e, lookup zfs.entries (stripRoot name zfs.root) = some e → e.K ≠ Kind.fil →
        ∀ zipErr' : ZipFile → Option Str,
          Open os zipErr' zfs name = .error Error.ErrInvalid) := by
  unfold Open
  simp only [hin, Bool.not_true, Bool.false_eq_true, ↓reduceIte]
  cases hl : lookup zfs.entries (stripRoot name zfs.root) with
  | none => simp
  | some e =>
    cases hk : e.K with
    | fil =>
      cases hz : zipErr e.F with
      | none => simp [openMember, hz, hk]
      | some msg => simp [openMember, hz, hk]
    | dir => simp [hk]
    | sym => simp [hk]

/-- C8 at the scenario: `lib/index.js` is a file, `lib` a directory. -/
theorem open_three_way_witness :
    hasPrefix "/proj/node_modules/pkg/lib/index.js".toList scenarioFS.root = true ∧
      Open noRealFS (fun _ => none) scenarioFS "/proj/node_modules/pkg/lib/index.js".toList =
        .ok [105, 59] ∧
      Open noRealFS (fun _ => some "zip: not a valid zip file".toList) scenarioFS
        "/proj/node_modules/pkg/lib/index.js".toList =
          .error (Error.zip "zip: not a valid zip file".toList) ∧
      (Open noRealFS (fun _ => none) scenarioFS "/proj/node_modules/pkg/lib".toList =
          .error Error.ErrInvalid ↔
        ∃ e, lookup scenarioFS.entries
            (stripRoot "/proj/node_modules/pkg/lib".toList scenarioFS.root) = some e ∧
          (e.K = Kind.dir ∨ e.K = Kind.sym)) :=
  ⟨by decide,
    ((open_three_way noRealFS (fun _ => none) scenarioFS
      "/proj/node_modules/pkg/lib/index.js".toList (by decide)).2.2.1
      ⟨"lib/index.js".toList, Kind.fil, ⟨"pkg/lib/index.js".toList, fileMode, [105, 59]⟩, []⟩
      (by decide) (by decide)).2.1 rfl,
    ((open_three_way noRealFS (fun _ => some "zip: not a valid zip file".toList) scenarioFS
      "/proj/node_modules/pkg/lib/index.js".toList (by decide)).2.2.1
      ⟨"lib/index.js".toList, Kind.fil, ⟨"pkg/lib/index.js".toList, fileMode, [105, 59]⟩, []⟩
      (by decide) (by decide)).2.2 _ rfl,
    (open_three_way noRealFS (fun _ => none) scenarioFS "/proj/node_modules/pkg/lib".toList
      (by decide)).2.1⟩

/-- C9: on a file system built by `New`, for a path that `Readdirnames`
answers from the archive, with canonical key `k`: not-found exactly when `k`
is absent, invalid-target exactly when `k` is present with kind file or
symlink, and for a directory entry its children list as it stands, none of
whose names contains `/`. -/
theorem readdirnames_three_way (os : RealFS) (ms : List ZipFile) (fsRoot zipRoot cwd : Str)
    (zfs : ZipFS) (name : Str) (hnew : New (.ok ms) fsRoot zipRoot cwd = .ok zfs)
    (hin : hasPrefix name zfs.root = true) :
    (Readdirnames os zfs name = .error Error.ErrNotExist ↔
        lookup zfs.entries (stripRoot name zfs.root) = none) ∧
      (Readdirnames os zfs name = .error Error.ErrInvalid ↔
        ∃ e, lookup zfs.entries (stripRoot name zfs.root) = some e ∧
          (e.K = Kind.fil ∨ e.K = Kind.sym)) ∧
      (∀ e, lookup zfs.entries (stripRoot name zfs.root) = some e → e.K = Kind.dir →
        Readdirnames os zfs name = .ok e.D ∧ ∀ c ∈ e.D, '/' ∉ c) := by
  have hslash : ∀ e, lookup zfs.entries (stripRoot name zfs.root) = some e →
      ∀ c ∈ e.D, '/' ∉ c := by
    intro e he c hc
    obtain ⟨m0, post, _, _, _, hentry⟩ := New_lookup_some hnew he
    rw [hentry] at hc
    obtain ⟨m, _, hm⟩ := List.mem_filterMap.mp hc
    exact childBase_no_slash hm
  unfold Readdirnames
  simp only [hin, Bool.not_true, Bool.false_eq_true, ↓reduceIte]
  cases hl : lookup zfs.entries (stripRoot name zfs.root) with
  | none => simp
  | some e =>
    have hs := hslash e hl
    cases hk : e.K <;> simp [hk]
    exact hs

/-- C9 at the scenario: `lib` is a directory with the one child `index.js`. -/
theorem readdirnames_three_way_witness :
    New (.ok scenarioArchive) "/proj/node_modules/pkg".toList "pkg/".toList "/proj".toList =
        .ok scenarioFS ∧
      hasPrefix "/proj/node_modules/pkg/lib".toList scenarioFS.root = true ∧
      Readdirnames noRealFS scenarioFS "/proj/node_modules/pkg/lib".toList =
        .ok ["index.js".toList] ∧
      ∀ c ∈ ["index.js".toList], '/' ∉ c :=
  ⟨by decide, by decide,
    (readdirnames_three_way noRealFS scenarioArchive "/proj/node_modules/pkg".toList
      "pkg/".toList "/proj".toList scenarioFS "/proj/node_modules/pkg/lib".toList
      (by decide) (by decide)).2.2
      ⟨"lib".toList, Kind.dir, ⟨"pkg/lib/".toList, dirMode, []⟩, ["index.js".toList]⟩
      (by decide) (by decide)⟩

/-- C10: on a file system built by `New`, for a path that `Stat` answers from
the archive, with canonical key `k`: not-found exactly when `k` is absent; and
when `k` is present, whatever the kind, `Stat` returns the descriptor of the
entry's backing member (so never invalid-target), whose is-directory flag is
set exactly when the entry's kind is directory. -/
theorem stat_inside_mount (os : RealFS) (ms : List ZipFile) (fsRoot zipRoot cwd : Str)
    (zfs : ZipFS) (path : Str) (hnew : New (.ok ms) fsRoot zipRoot cwd = .ok zfs)
    (hin : hasPrefix path zfs.root = true) :
    (Stat os zfs path = .error Error.ErrNotExist ↔
        lookup zfs.entries (stripRoot path zfs.root) = none) ∧
      Stat os zfs path ≠ .error Error.ErrInvalid ∧
      (∀ e, lookup zfs.entries (stripRoot path zfs.root) = some e →
        Stat os zfs path = .ok e.F.FileInfo ∧
          (e.F.FileInfo.IsDir = true ↔ e.K = Kind.dir)) := by
  have hdir : ∀ e, lookup zfs.entries (stripRoot path zfs.root) = some e →
      (e.F.FileInfo.IsDir = true ↔ e.K = Kind.dir) := by
    intro e he
    obtain ⟨m0, post, _, _, hcl, hentry⟩ := New_lookup_some hnew he
    rw [hentry]
    exact isDir_iff_kind hcl
  unfold Stat
  simp only [hin, Bool.not_true, Bool.false_eq_true, ↓reduceIte]
  cases hl : lookup zfs.entries (stripRoot path zfs.root) with
  | none => simp
  | some e =>
    have hd := hdir e hl
    simp [hd]

/-- C10 at the scenario: the descriptor of `lib` is that of the member
`pkg/lib/`, a directory. -/
theorem stat_inside_mount_witness :
    New (.ok scenarioArchive) "/proj/node_modules/pkg".toList "pkg/".toList "/proj".toList =
        .ok scenarioFS ∧
      hasPrefix "/proj/node_modules/pkg/lib".toList scenarioFS.root = true ∧
      Stat noRealFS scenarioFS "/proj/node_modules/pkg/lib".toList =
        .ok (ZipFile.FileInfo ⟨"pkg/lib/".toList, dirMode, []⟩) ∧
      ((ZipFile.FileInfo ⟨"pkg/lib/".toList, dirMode, []⟩).IsDir = true ↔ Kind.dir = Kind.dir) :=
  ⟨by decide, by decide,
    (stat_inside_mount noRealFS scenarioArchive "/proj/node_modules/pkg".toList
      "pkg/".toList "/proj".toList scenarioFS "/proj/node_modules/pkg/lib".toList
      (by decide) (by decide)).2.2
      ⟨"lib".toList, Kind.dir, ⟨"pkg/lib/".toList, dirMode, []⟩, ["index.js".toList]⟩
      (by decide)⟩

/-! ## C13: `isRooted` -/

theorem hasPrefix_iff (s p : Str) : hasPrefix s p = true ↔ ∃ t, s = p ++ t := by
  unfold hasPrefix
  rw [List.isPrefixOf_iff_prefix]
  constructor
  · rintro ⟨t, ht⟩
    exact ⟨t, ht.symm⟩
  · rintro ⟨t, ht⟩
    exact ⟨t, ht.symm⟩

theorem getElem?_length_append (p t : Str) : (p ++ t)[p.length]? = t.head? := by
  rw [List.getElem?_append_right (Nat.le_refl _)]
  cases t <;> simp

/-- The two tests of `isRooted` after `name == root`, in structural form. -/
theorem rooted_tail_iff (name root : Str) :
    (hasPrefix name root = true ∧ name[root.length]? = some '/') ↔
      ∃ rest, name = root ++ '/' :: rest := by
  constructor
  · rintro ⟨hp, hi⟩
    obtain ⟨t, rfl⟩ := (hasPrefix_iff name root).mp hp
    rw [getElem?_length_append] at hi
    cases t with
    | nil => simp at hi
    | cons c rest =>
      simp only [List.head?_cons, Option.some.injEq] at hi
      subst hi
      exact ⟨rest, rfl⟩
  · rintro ⟨rest, rfl⟩
    refine ⟨(hasPrefix_iff _ _).mpr ⟨_, rfl⟩, ?_⟩
    rw [getElem?_length_append]
    rfl

theorem isRooted_iff (name root : Str) :
    isRooted name root = true ↔ name = root ∨ ∃ rest, name = root ++ '/' :: rest := by
  rw [← rooted_tail_iff]
  simp [isRooted]

/-- C13: `isRooted` never reads `name` past its end (the checked evaluation
always returns the value of `isRooted`), and it is true exactly when
`name == root`, or `name` starts with `root` and has `/` at position
`len(root)`; so `isRooted("abcd", "abc")` is false. -/
theorem isRooted_total_exact (name root : Str) :
    isRootedChecked name root = some (isRooted name root) ∧
      (isRooted name root = true ↔
        name = root ∨ (hasPrefix name root = true ∧ name[root.length]? = some '/')) ∧
      (isRooted name root = true ↔ name = root ∨ ∃ rest, name = root ++ '/' :: rest) ∧
      isRooted "abcd".toList "abc".toList = false := by
  refine ⟨?_, ?_, isRooted_iff name root, by decide⟩
  · unfold isRootedChecked isRooted
    by_cases h : name = root
    · simp [h]
    · by_cases hp : hasPrefix name root = true
      · obtain ⟨t, rfl⟩ := (hasPrefix_iff name root).mp hp
        cases t with
        | nil => simp at h
        | cons c rest =>
          have hi : (root ++ c :: rest)[root.length]? = some c := by
            rw [getElem?_length_append]
            rfl
          simp [hp, hi]
      · simp [h, hp]
  · simp [isRooted]

/-! ## C15 and C14: what `cleanupName` returns -/

/-- No element of a path contains `/`. -/
theorem splitSlash_no_slash (s : Str) : ∀ e ∈ splitSlash s, '/' ∉ e := by
  induction s with
  | nil => simp [splitSlash]
  | cons c cs ih =>
    unfold splitSlash
    by_cases hc : c = '/'
    · simp only [hc, ↓reduceIte, List.mem_cons]
      rintro e (rfl | he)
      · simp
      · exact ih e he
    · simp only [hc, ↓reduceIte]
      cases hs : splitSlash cs with
      | nil => simpa using fun h => hc h.symm
      | cons h t =>
        rw [hs] at ih
        simp only [List.mem_cons]
        rintro e (rfl | he)
        · have := ih h (by simp)
          simp only [List.mem_cons, not_or]
          exact ⟨fun h' => hc h'.symm, this⟩
        · exact ih e (by simp [he])

theorem cleanElems_kept (rooted : Bool) (es : List Str) :
    ∀ out : List Str, (∀ e ∈ es, '/' ∉ e) →
      (∀ e ∈ out, e ≠ [] ∧ e ≠ ['.'] ∧ '/' ∉ e) →
      ∀ e ∈ cleanElems rooted es out, e ≠ [] ∧ e ≠ ['.'] ∧ '/' ∉ e := by
  induction es with
  | nil => intro out _ hout; simpa [cleanElems] using hout
  | cons a t ih =>
    intro out hes hout
    have ht : ∀ e ∈ t, '/' ∉ e := fun e he => hes e (by simp [he])
    have ha : '/' ∉ a := hes a (by simp)
    unfold cleanElems
    by_cases h1 : a = [] ∨ a = ['.']
    · simp only [h1, ↓reduceIte]
      exact ih out ht hout
    · simp only [h1, ↓reduceIte]
      have hpush : ∀ e ∈ a :: out, e ≠ [] ∧ e ≠ ['.'] ∧ '/' ∉ e := by
        intro e he
        rcases List.mem_cons.mp he with rfl | he
        · exact ⟨fun h => h1 (Or.inl h), fun h => h1 (Or.inr h), ha⟩
        · exact hout e he
      by_cases h2 : a = ['.', '.']
      · simp only [h2, ↓reduceIte]
        cases out with
        | nil =>
          cases rooted
          · simp only [Bool.false_eq_true, ↓reduceIte]
            refine ih _ ht ?_
            intro e he
            simp only [List.mem_singleton] at he
            subst he
            decide
          · simp only [↓reduceIte]
            exact ih _ ht (by simp)
        | cons top below =>
          simp only
          by_cases h3 : top = ['.', '.']
          · simp only [h3, ↓reduceIte]
            refine ih _ ht ?_
            rw [h2, h3] at hpush
            exact hpush
          · simp only [h3, ↓reduceIte]
            exact ih _ ht (fun e he => hout e (by simp [he]))
      · simp only [h2, ↓reduceIte]
        exact ih _ ht hpush

theorem joinSlash_cons_cons (e e2 : Str) (es : List Str) :
    joinSlash (e :: e2 :: es) = e ++ '/' :: joinSlash (e2 :: es) := rfl

/-- The join of kept elements starts with a character other than `/`. -/
theorem joinSlash_head (l : List Str) (hl : ∀ e ∈ l, e ≠ [] ∧ e ≠ ['.'] ∧ '/' ∉ e)
    (hne : l ≠ []) : ∃ c rest, joinSlash l = c :: rest ∧ c ≠ '/' := by
  cases l with
  | nil => exact absurd rfl hne
  | cons e t =>
    obtain ⟨he0, _, hes⟩ := hl e (by simp)
    cases e with
    | nil => exact absurd rfl he0
    | cons c r =>
      have hc : c ≠ '/' := fun h => hes (by simp [h])
      cases t with
      | nil => exact ⟨c, r, rfl, hc⟩
      | cons e2 es => exact ⟨c, r ++ '/' :: joinSlash (e2 :: es), rfl, hc⟩

theorem joinSlash_head? (l : List Str) (hl : ∀ e ∈ l, e ≠ [] ∧ e ≠ ['.'] ∧ '/' ∉ e) :
    (joinSlash l).head? ≠ some '/' := by
  by_cases hne : l = []
  · subst hne
    simp [joinSlash]
  · obtain ⟨c, rest, h, hc⟩ := joinSlash_head l hl hne
    rw [h]
    simpa using hc

/-- The join of kept elements ends with a character other than `/`. -/
theorem joinSlash_getLast? (l : List Str) (hl : ∀ e ∈ l, e ≠ [] ∧ e ≠ ['.'] ∧ '/' ∉ e) :
    (joinSlash l).getLast? ≠ some '/' := by
  induction l with
  | nil => simp [joinSlash]
  | cons e t ih =>
    obtain ⟨he0, _, hes⟩ := hl e (by simp)
    have ht : ∀ x ∈ t, x ≠ [] ∧ x ≠ ['.'] ∧ '/' ∉ x := fun x hx => hl x (by simp [hx])
    cases t with
    | nil =>
      simp only [joinSlash]
      intro h
      exact hes (List.mem_of_getLast?_eq_some h)
    | cons e2 es =>
      rw [joinSlash_cons_cons]
      obtain ⟨c, rest, hj, _⟩ := joinSlash_head (e2 :: es) ht (by simp)
      have hlast : (e ++ '/' :: joinSlash (e2 :: es)).getLast? =
          (joinSlash (e2 :: es)).getLast? := by
        rw [hj, List.getLast?_append, List.getLast?_cons_cons]
        cases hg : (c :: rest).getLast? with
        | none => simp at hg
        | some x => rfl
      rw [hlast]
      exact ih ht

theorem chain_no_slash (e : Str) (he : '/' ∉ e) :
    List.Chain' (fun a b : Char => ¬ (a = '/' ∧ b = '/')) e := by
  induction e with
  | nil => exact List.chain'_nil
  | cons c r ih =>
    have hc : c ≠ '/' := fun h => he (by simp [h])
    have hr : '/' ∉ r := fun h => he (by simp [h])
    rw [List.chain'_cons']
    exact ⟨fun y _ h => hc h.1, ih hr⟩

/-- The join of kept elements has no two `/` in a row. -/
theorem joinSlash_chain (l : List Str) (hl : ∀ e ∈ l, e ≠ [] ∧ e ≠ ['.'] ∧ '/' ∉ e) :
    List.Chain' (fun a b : Char => ¬ (a = '/' ∧ b = '/')) (joinSlash l) := by
  induction l with
  | nil => exact List.chain'_nil
  | cons e t ih =>
    obtain ⟨_, _, hes⟩ := hl e (by simp)
    have ht : ∀ x ∈ t, x ≠ [] ∧ x ≠ ['.'] ∧ '/' ∉ x := fun x hx => hl x (by simp [hx])
    cases t with
    | nil => exact chain_no_slash e hes
    | cons e2 es =>
      rw [joinSlash_cons_cons, List.chain'_append]
      obtain ⟨c, rest, hj, hc⟩ := joinSlash_head (e2 :: es) ht (by simp)
      refine ⟨chain_no_slash e hes, ?_, ?_⟩
      · rw [List.chain'_cons']
        refine ⟨?_, ih ht⟩
        intro y hy h
        rw [hj] at hy
        simp only [List.head?_cons, Option.mem_def, Option.some.injEq] at hy
        exact hc (hy ▸ h.2)
      · intro x hx y _ h
        exact hes (h.1 ▸ List.mem_of_mem_getLast? hx)

/-- The join of kept elements does not start with `./`. -/
theorem joinSlash_no_dot_slash (l : List Str)
    (hl : ∀ e ∈ l, e ≠ [] ∧ e ≠ ['.'] ∧ '/' ∉ e) :
    hasPrefix (joinSlash l) ['.', '/'] = false := by
  cases l with
  | nil => rfl
  | cons e t =>
    obtain ⟨he0, hed, hes⟩ := hl e (by simp)
    cases hb : hasPrefix (joinSlash (e :: t)) ['.', '/'] with
    | false => rfl
    | true =>
      exfalso
      obtain ⟨r, hr⟩ := (hasPrefix_iff _ _).mp hb
      cases e with
      | nil => exact he0 rfl
      | cons c e' =>
        cases e' with
        | nil =>
          cases t with
          | nil =>
            simp only [joinSlash] at hr
            simp at hr
          | cons e2 es =>
            rw [joinSlash_cons_cons] at hr
            simp only [List.cons_append, List.nil_append, List.cons.injEq] at hr
            exact hed (by rw [hr.1])
        | cons c2 e'' =>
          have h2 : c2 = '/' := by
            cases t with
            | nil =>
              simp only [joinSlash] at hr
              simp only [List.cons_append, List.nil_append, List.cons.injEq] at hr
              exact hr.2.1
            | cons e2 es =>
              rw [joinSlash_cons_cons] at hr
              simp only [List.cons_append, List.nil_append, List.cons.injEq] at hr
              exact hr.2.1
          exact hes (by simp [h2])

theorem trimLeftSlash_of_head {s : Str} (h : s.head? ≠ some '/') : trimLeftSlash s = s := by
  cases s with
  | nil => rfl
  | cons c r =>
    have hc : c ≠ '/' := by simpa using h
    simp [trimLeftSlash, List.dropWhile_cons, hc]

theorem trimRightSlash_of_last {s : Str} (h : s.getLast? ≠ some '/') : trimRightSlash s = s := by
  unfold trimRightSlash
  rw [trimLeftSlash_of_head (by simpa using h), List.reverse_reverse]

/-- The shape of every canonical name: `.`, or kept path elements joined by `/`. -/
theorem cleanupName_form (name : Str) :
    cleanupName name = ['.'] ∨
      ∃ l : List Str, (∀ e ∈ l, e ≠ [] ∧ e ≠ ['.'] ∧ '/' ∉ e) ∧ cleanupName name = joinSlash l := by
  have hkept : ∀ e ∈ (cleanElems (hasPrefix name ['/']) (splitSlash name) []).reverse,
      e ≠ [] ∧ e ≠ ['.'] ∧ '/' ∉ e := by
    intro e he
    rw [List.mem_reverse] at he
    exact cleanElems_kept _ _ [] (splitSlash_no_slash name) (by simp) e he
  generalize hl : (cleanElems (hasPrefix name ['/']) (splitSlash name) []).reverse = l at hkept
  have hbody : ∀ s : Str, s = joinSlash l →
      trimRightSlash (trimLeftSlash (if hasPrefix s ['.', '/'] then s.drop 2 else s)) = s := by
    intro s hs
    subst hs
    rw [joinSlash_no_dot_slash l hkept]
    simp only [Bool.false_eq_true, ↓reduceIte]
    rw [trimLeftSlash_of_head (joinSlash_head? l hkept),
      trimRightSlash_of_last (joinSlash_getLast? l hkept)]
  unfold cleanupName Clean
  simp only [hl]
  cases hr : hasPrefix name ['/'] with
  | true =>
    right
    refine ⟨l, hkept, ?_⟩
    simp only [↓reduceIte]
    have h1 : hasPrefix ('/' :: joinSlash l) ['.', '/'] = false := by
      cases hb : hasPrefix ('/' :: joinSlash l) ['.', '/'] with
      | false => rfl
      | true =>
        obtain ⟨r, hr'⟩ := (hasPrefix_iff _ _).mp hb
        simp only [List.cons_append, List.cons.injEq] at hr'
        exact absurd hr'.1 (by decide)
    rw [h1]
    simp only [Bool.false_eq_true, ↓reduceIte]
    rw [trimLeftSlash_slash, trimLeftSlash_of_head (joinSlash_head? l hkept),
      trimRightSlash_of_last (joinSlash_getLast? l hkept)]
  | false =>
    simp only [Bool.false_eq_true, ↓reduceIte]
    by_cases hb : joinSlash l = []
    · left
      simp only [hb, ↓reduceIte]
      decide
    · right
      refine ⟨l, hkept, ?_⟩
      simp only [hb, ↓reduceIte]
      exact hbody _ rfl

theorem no_double_slash_of_chain {s : Str}
    (h : List.Chain' (fun a b : Char => ¬ (a = '/' ∧ b = '/')) s) : ¬ (['/', '/'] <:+: s) := by
  intro hin
  have := h.infix hin
  rw [List.chain'_cons] at this
  exact this.1 ⟨rfl, rfl⟩

/-- C15: the result of `cleanupName` does not begin with `/`, does not end
with `/`, does not begin with `./`, and has no empty path element (no `//`
inside). -/
theorem cleanupName_trimmed (name : Str) :
    (cleanupName name).head? ≠ some '/' ∧
      (cleanupName name).getLast? ≠ some '/' ∧
      hasPrefix (cleanupName name) ['.', '/'] = false ∧
      ¬ (['/', '/'] <:+: cleanupName name) := by
  rcases cleanupName_form name with h | ⟨l, hl, h⟩
  · rw [h]
    decide
  · rw [h]
    exact ⟨joinSlash_head? l hl, joinSlash_getLast? l hl, joinSlash_no_dot_slash l hl,
      no_double_slash_of_chain (joinSlash_chain l hl)⟩

/-- C14: for canonical names `name` and `root` (results of `cleanupName`)
with `isRooted(name, root)`: `stripRoot(root, root)` is empty, and when
`name != root` the result of `stripRoot(name, root)` has no leading `/` and
`root + "/" + stripRoot(name, root) == name`. -/
theorem stripRoot_inverts_rooting (n r : Str)
    (h : isRooted (cleanupName n) (cleanupName r) = true) :
    stripRoot (cleanupName r) (cleanupName r) = [] ∧
      (cleanupName n ≠ cleanupName r →
        (stripRoot (cleanupName n) (cleanupName r)).head? ≠ some '/' ∧
        cleanupName r ++ '/' :: stripRoot (cleanupName n) (cleanupName r) = cleanupName n) := by
  refine ⟨stripRoot_self _, ?_⟩
  intro hne
  have hno := (cleanupName_trimmed n).2.2.2
  rcases (isRooted_iff _ _).mp h with heq | ⟨rest, hrest⟩
  · exact absurd heq hne
  · have hhead : rest.head? ≠ some '/' := by
      intro hh
      cases rest with
      | nil => simp at hh
      | cons c t =>
        simp only [List.head?_cons, Option.some.injEq] at hh
        subst hh
        apply hno
        rw [hrest]
        exact ⟨cleanupName r, t, by simp⟩
    have hs : stripRoot (cleanupName n) (cleanupName r) = rest := by
      rw [hrest]
      simp only [stripRoot, trimPrefix_append, trimLeftSlash_slash]
      exact trimLeftSlash_of_head hhead
    rw [hs]
    exact ⟨hhead, hrest.symm⟩

/-- C14 at the names `pkg/lib/` and `pkg/`, whose canonical forms are `pkg/lib`
and `pkg`. -/
theorem stripRoot_inverts_rooting_witness :
    isRooted (cleanupName "pkg/lib/".toList) (cleanupName "pkg/".toList) = true ∧
      stripRoot (cleanupName "pkg/".toList) (cleanupName "pkg/".toList) = [] ∧
      (cleanupName "pkg/lib/".toList ≠ cleanupName "pkg/".toList →
        (stripRoot (cleanupName "pkg/lib/".toList) (cleanupName "pkg/".toList)).head? ≠
            some '/' ∧
          cleanupName "pkg/".toList ++
              '/' :: stripRoot (cleanupName "pkg/lib/".toList) (cleanupName "pkg/".toList) =
            cleanupName "pkg/lib/".toList) :=
  ⟨by decide, stripRoot_inverts_rooting "pkg/lib/".toList "pkg/".toList (by decide)⟩

/-! ## C11 and C12: the name added to the listing of the mount root's parent -/

/-- Outside the mount root, `Readdirnames` is the real listing, with
`node_modules` appended when the path is `rootDir` and the listing succeeded. -/
theorem Readdirnames_outside (os : RealFS) (zfs : ZipFS) (name : Str)
    (hout : hasPrefix name zfs.root = false) :
    Readdirnames os zfs name =
      match os.Readdirnames name with
      | .ok names =>
        if name = zfs.rootDir then .ok (names ++ ["node_modules".toList]) else .ok names
      | .error err => .error err := by
  unfold Readdirnames
  simp only [hout, Bool.not_false, ↓reduceIte]

/-- C11 (as stated) fails: with mount root `/proj/node_modules`, when the real
listing of `/proj` already holds a `node_modules`, `Readdirnames` of `/proj`
returns a list holding the name twice. -/
theorem synthetic_name_counterexample :
    New (.ok nodeModulesArchive) "/proj/node_modules".toList "node_modules/".toList
        "/proj".toList = .ok nodeModulesFS ∧
      Dir "/proj/node_modules".toList = "/proj".toList ∧
      (listingOS "/proj".toList ["app.jsx".toList, "node_modules".toList]).Readdirnames
        "/proj".toList = .ok ["app.jsx".toList, "node_modules".toList] ∧
      Readdirnames (listingOS "/proj".toList ["app.jsx".toList, "node_modules".toList])
        nodeModulesFS "/proj".toList =
          .ok ["app.jsx".toList, "node_modules".toList, "node_modules".toList] ∧
      List.count "node_modules".toList
        ["app.jsx".toList, "node_modules".toList, "node_modules".toList] = 2 := by
  decide

/-- C11 (amended): for a mount root `R` whose parent directory does not have
`R` as a string prefix, and a successful real listing `L` of that parent,
`Readdirnames` of the parent returns `L` with the name `node_modules` appended
once at the end: the name occurs one time more than in `L`, so exactly once
when `L` does not hold it; and any call with the same real listing returns the
same result. -/
theorem synthetic_name_appended_once (os : RealFS) (ms : List ZipFile)
    (fsRoot zipRoot cwd : Str) (zfs : ZipFS) (L : List Str)
    (hnew : New (.ok ms) fsRoot zipRoot cwd = .ok zfs)
    (hout : hasPrefix (Dir fsRoot) fsRoot = false)
    (hL : os.Readdirnames (Dir fsRoot) = .ok L) :
    Readdirnames os zfs (Dir fsRoot) = .ok (L ++ ["node_modules".toList]) ∧
      List.count "node_modules".toList (L ++ ["node_modules".toList]) =
        List.count "node_modules".toList L + 1 ∧
      ("node_modules".toList ∉ L →
        List.count "node_modules".toList (L ++ ["node_modules".toList]) = 1) ∧
      (∀ os' : RealFS, os'.Readdirnames (Dir fsRoot) = .ok L →
        Readdirnames os' zfs (Dir fsRoot) = Readdirnames os zfs (Dir fsRoot)) := by
  obtain ⟨_, hroot, hdir, _⟩ := New_ok hnew
  have hout' : hasPrefix (Dir fsRoot) zfs.root = false := by rw [hroot]; exact hout
  have hres : ∀ os' : RealFS, os'.Readdirnames (Dir fsRoot) = .ok L →
      Readdirnames os' zfs (Dir fsRoot) = .ok (L ++ ["node_modules".toList]) := by
    intro os' h'
    rw [Readdirnames_outside os' zfs _ hout', h', hdir]
    simp
  have hcount : List.count "node_modules".toList (L ++ ["node_modules".toList]) =
      List.count "node_modules".toList L + 1 := by
    rw [List.count_append]
    simp
  refine ⟨hres os hL, hcount, ?_, ?_⟩
  · intro hnot
    rw [hcount, List.count_eq_zero_of_not_mem hnot]
  · intro os' h'
    rw [hres os' h', hres os hL]

/-- The amended C11 at the test configuration, with a real `/proj` that
lists only `app.jsx`. -/
theorem synthetic_name_appended_once_witness :
    Readdirnames (listingOS "/proj".toList ["app.jsx".toList]) nodeModulesFS
        (Dir "/proj/node_modules".toList) =
          .ok (["app.jsx".toList] ++ ["node_modules".toList]) ∧
      List.count "node_modules".toList (["app.jsx".toList] ++ ["node_modules".toList]) = 1 :=
  have h := synthetic_name_appended_once (listingOS "/proj".toList ["app.jsx".toList])
    nodeModulesArchive "/proj/node_modules".toList "node_modules/".toList "/proj".toList
    nodeModulesFS ["app.jsx".toList] (by decide) (by decide) (by decide)
  ⟨h.1, h.2.2.1 (by decide)⟩

/-- C12 (as stated) fails: with mount root `/proj/node_modules/pkg`, whose
base name is `pkg`, the name added to the real listing of its parent
`/proj/node_modules` is `node_modules`. -/
theorem injected_name_counterexample :
    New (.ok scenarioArchive) "/proj/node_modules/pkg".toList "pkg/".toList "/proj".toList =
        .ok scenarioFS ∧
      Dir "/proj/node_modules/pkg".toList = "/proj/node_modules".toList ∧
      Base "/proj/node_modules/pkg".toList = "pkg".toList ∧
      Readdirnames (listingOS "/proj/node_modules".toList ["react".toList]) scenarioFS
        "/proj/node_modules".toList = .ok ["react".toList, "node_modules".toList] ∧
      "pkg".toList ∉ ["react".toList, "node_modules".toList] := by
  decide

/-- C12 (amended): for a mount root `R` whose parent directory does not have
`R` as a string prefix, when `Readdirnames` is called on the parent of `R` and
the real listing succeeds, the single name added to it is the constant
`node_modules`, which is the base name of `R` when `R` is named so (as for
`<cwd>/node_modules`); and for every other path outside the mount root the
outcome of the real listing is returned with nothing added. -/
theorem injected_name_is_node_modules (os : RealFS) (ms : List ZipFile)
    (fsRoot zipRoot cwd : Str) (zfs : ZipFS)
    (hnew : New (.ok ms) fsRoot zipRoot cwd = .ok zfs)
    (hout : hasPrefix (Dir fsRoot) fsRoot = false) :
    (∀ L, os.Readdirnames (Dir fsRoot) = .ok L →
        Readdirnames os zfs (Dir fsRoot) = .ok (L ++ ["node_modules".toList]) ∧
        (Base fsRoot = "node_modules".toList →
          Readdirnames os zfs (Dir fsRoot) = .ok (L ++ [Base fsRoot]))) ∧
      (∀ name, hasPrefix name fsRoot = false → name ≠ Dir fsRoot →
        Readdirnames os zfs name = os.Readdirnames name) := by
  obtain ⟨_, hroot, hdir, _⟩ := New_ok hnew
  constructor
  · intro L hL
    have hout' : hasPrefix (Dir fsRoot) zfs.root = false := by rw [hroot]; exact hout
    have hres : Readdirnames os zfs (Dir fsRoot) = .ok (L ++ ["node_modules".toList]) := by
      rw [Readdirnames_outside os zfs _ hout', hL, hdir]
      simp
    refine ⟨hres, ?_⟩
    intro hb
    rw [hb]
    exact hres
  · intro name hn hne
    have hn' : hasPrefix name zfs.root = false := by rw [hroot]; exact hn
    rw [Readdirnames_outside os zfs _ hn', hdir]
    cases h : os.Readdirnames name with
    | error e => rfl
    | ok names => simp [hne]

/-- The amended C12 at the test configuration: the mount root
`/proj/node_modules` has the base name `node_modules`, and that name is added
to the listing of `/proj`. -/
theorem injected_name_is_node_modules_witness :
    Base "/proj/node_modules".toList = "node_modules".toList ∧
      Readdirnames (listingOS "/proj".toList ["app.jsx".toList]) nodeModulesFS
        (Dir "/proj/node_modules".toList) =
          .ok (["app.jsx".toList] ++ [Base "/proj/node_modules".toList]) :=
  ⟨by decide,
    ((injected_name_is_node_modules (listingOS "/proj".toList ["app.jsx".toList])
      nodeModulesArchive "/proj/node_modules".toList "node_modules/".toList "/proj".toList
      nodeModulesFS (by decide) (by decide)).1 ["app.jsx".toList] (by decide)).2 (by decide)⟩

/-! ## C16 and C17: the facade -/

theorem lookupData_storeData (data : List (Str × Entry)) (k k' : Str) (v : Entry) :
    lookupData (storeData data k v) k' = if k = k' then some v else lookupData data k' := by
  induction data with
  | nil => simp [storeData, lookupData]
  | cons p rest ih =>
    obtain ⟨k0, e0⟩ := p
    by_cases h0 : k0 = k
    · subst h0
      by_cases h1 : k0 = k' <;> simp [storeData, lookupData, h1]
    · by_cases h1 : k0 = k'
      · subst h1
        have : ¬ k = k0 := fun h => h0 h.symm
        simp [storeData, lookupData, h0, this]
      · simp [storeData, lookupData, h0, h1, ih]

theorem keys_storeData (data : List (Str × Entry)) (k : Str) (v : Entry) :
    (storeData data k v).map Prod.fst =
      if k ∈ data.map Prod.fst then data.map Prod.fst else data.map Prod.fst ++ [k] := by
  induction data with
  | nil => simp [storeData]
  | cons p rest ih =>
    obtain ⟨k0, e0⟩ := p
    by_cases h0 : k0 = k
    · subst h0
      simp only [storeData, ↓reduceIte, List.map_cons, List.mem_cons, true_or]
    · have h0' : ¬ k = k0 := fun h => h0 h.symm
      simp only [storeData, h0, ↓reduceIte, List.map_cons, ih, List.mem_cons, h0', false_or]
      by_cases hm : k ∈ rest.map Prod.fst <;> simp [hm]

theorem nodup_keys_storeData (data : List (Str × Entry)) (k : Str) (v : Entry)
    (h : (data.map Prod.fst).Nodup) : ((storeData data k v).map Prod.fst).Nodup := by
  rw [keys_storeData]
  by_cases hm : k ∈ data.map Prod.fst
  · simpa [hm] using h
  · simp only [hm, ↓reduceIte]
    rw [List.nodup_append]
    refine ⟨h, List.nodup_singleton k, ?_⟩
    intro a ha hb
    simp only [List.mem_singleton] at hb
    subst hb
    exact hm ha

theorem nodup_keys_fillEntries (ToLower : Str → Str) (dir : Str) (names : List Str) :
    ∀ data : List (Str × Entry), (data.map Prod.fst).Nodup →
      ((fillEntries ToLower dir data names).map Prod.fst).Nodup := by
  induction names with
  | nil => intro data h; simpa [fillEntries] using h
  | cons n t ih =>
    intro data h
    simp only [fillEntries]
    exact ih _ (nodup_keys_storeData data _ _ h)

/-- The keys of the map after the loop: those it had and the lower-cased
names. -/
theorem isSome_lookupData_fillEntries (ToLower : Str → Str) (dir : Str) (names : List Str) :
    ∀ (data : List (Str × Entry)) (k : Str),
      (lookupData (fillEntries ToLower dir data names) k).isSome = true ↔
        (lookupData data k).isSome = true ∨ ∃ n ∈ names, ToLower n = k := by
  induction names with
  | nil => intro data k; simp [fillEntries]
  | cons n t ih =>
    intro data k
    simp only [fillEntries]
    rw [ih, lookupData_storeData]
    by_cases hk : ToLower n = k
    · simp [hk]
    · simp [hk]

/-- Every entry of the map after the loop that was not there before was made
from one of the names. -/
theorem entry_of_fillEntries (ToLower : Str → Str) (dir : Str) (all names : List Str)
    (hsub : ∀ n ∈ names, n ∈ all) :
    ∀ (data : List (Str × Entry)),
      (∀ k e, lookupData data k = some e →
        e.needStat = true ∧ e.dir = dir ∧ e.base ∈ all ∧ ToLower e.base = k) →
      ∀ k e, lookupData (fillEntries ToLower dir data names) k = some e →
        e.needStat = true ∧ e.dir = dir ∧ e.base ∈ all ∧ ToLower e.base = k := by
  induction names with
  | nil => intro data h; simpa [fillEntries] using h
  | cons n t ih =>
    intro data h
    simp only [fillEntries]
    refine ih (fun m hm => hsub m (by simp [hm])) _ ?_
    intro k e he
    rw [lookupData_storeData] at he
    by_cases hk : ToLower n = k
    · simp only [hk, ↓reduceIte, Option.some.injEq] at he
      subst he
      exact ⟨rfl, rfl, hsub n (by simp), hk⟩
    · simp only [hk, ↓reduceIte] at he
      exact h k e he

/-- C16: when the backend lists the directory as `L`, `ReadDirectory` returns
no error and `DirEntries` whose directory is the absolute form of the path and
whose keys are exactly the lower-cased names of `L`, one entry a key; every
entry has `needStat` set, that directory, and a base name of `L` whose lower
case is its key.  So names that differ only by case share one entry, and a
listing that is a permutation of `L` gives the same keys. -/
theorem readDirectory_snapshot (ToLower : Str → Str) (f : IntfFS) (dir : Str) (L : List Str)
    (hL : f.inner.Readdirnames (f.toAbs dir) = .ok L) :
    (f.ReadDirectory ToLower dir).2 = (none, none) ∧
      (f.ReadDirectory ToLower dir).1.dir = f.toAbs dir ∧
      ((f.ReadDirectory ToLower dir).1.data.map Prod.fst).Nodup ∧
      (∀ k, (lookupData (f.ReadDirectory ToLower dir).1.data k).isSome = true ↔
        ∃ n ∈ L, ToLower n = k) ∧
      (∀ k e, lookupData (f.ReadDirectory ToLower dir).1.data k = some e →
        e.needStat = true ∧ e.dir = f.toAbs dir ∧ e.base ∈ L ∧ ToLower e.base = k) ∧
      (∀ n1 ∈ L, ∀ n2 ∈ L, ToLower n1 = ToLower n2 →
        ∃ e, lookupData (f.ReadDirectory ToLower dir).1.data (ToLower n1) = some e ∧
          lookupData (f.ReadDirectory ToLower dir).1.data (ToLower n2) = some e) ∧
      (∀ (g : IntfFS) (dir' : Str) (L' : List Str),
        g.inner.Readdirnames (g.toAbs dir') = .ok L' → L.Perm L' →
        ∀ k, (lookupData (g.ReadDirectory ToLower dir').1.data k).isSome =
          (lookupData (f.ReadDirectory ToLower dir).1.data k).isSome) := by
  have hval : ∀ (g : IntfFS) (d : Str) (M : List Str),
      g.inner.Readdirnames (g.toAbs d) = .ok M →
      g.ReadDirectory ToLower d =
        ({ dir := g.toAbs d, data := fillEntries ToLower (g.toAbs d) [] M }, none, none) := by
    intro g d M hM
    unfold IntfFS.ReadDirectory
    unfold IntfFS.toAbs at hM
    simp only [hM]
    rfl
  have hkeys : ∀ (g : IntfFS) (d : Str) (M : List Str),
      g.inner.Readdirnames (g.toAbs d) = .ok M →
      ∀ k, (lookupData (g.ReadDirectory ToLower d).1.data k).isSome = true ↔
        ∃ n ∈ M, ToLower n = k := by
    intro g d M hM k
    rw [hval g d M hM]
    simp [isSome_lookupData_fillEntries, lookupData]
  rw [hval f dir L hL] at *
  refine ⟨rfl, rfl, ?_, ?_, ?_, ?_, ?_⟩
  · exact nodup_keys_fillEntries ToLower _ L [] (by simp)
  · intro k
    have := hkeys f dir L hL k
    rw [hval f dir L hL] at this
    exact this
  · exact entry_of_fillEntries ToLower _ L L (fun n hn => hn) [] (by simp [lookupData])
  · intro n1 h1 n2 h2 heq
    have hs : (lookupData (fillEntries ToLower (f.toAbs dir) [] L) (ToLower n1)).isSome = true := by
      rw [isSome_lookupData_fillEntries]
      exact Or.inr ⟨n1, h1, rfl⟩
    obtain ⟨e, he⟩ := Option.isSome_iff_exists.mp hs
    exact ⟨e, he, heq ▸ he⟩
  · intro g dir' L' hL' hperm k
    have h1 := hkeys g dir' L' hL' k
    have h2 := hkeys f dir L hL k
    rw [hval f dir L hL] at h2
    rw [Bool.eq_iff_iff, h1, h2]
    constructor
    · rintro ⟨n, hn, hk⟩
      exact ⟨n, hperm.mem_iff.mpr hn, hk⟩
    · rintro ⟨n, hn, hk⟩
      exact ⟨n, hperm.mem_iff.mp hn, hk⟩

/-- C16 at `caseFS`: `App.JSX` and `app.jsx` share the key `app.jsx`, and the
snapshot of `src` has the two keys `app.jsx` and `lib`. -/
theorem readDirectory_snapshot_witness :
    caseFS.inner.Readdirnames (caseFS.toAbs "src".toList) =
        .ok ["App.JSX".toList, "app.jsx".toList, "lib".toList] ∧
      (caseFS.ReadDirectory asciiLower "src".toList).1.dir = "/proj/src".toList ∧
      (caseFS.ReadDirectory asciiLower "src".toList).1.data.map Prod.fst =
        ["app.jsx".toList, "lib".toList] ∧
      ((caseFS.ReadDirectory asciiLower "src".toList).1.data.map Prod.fst).Nodup :=
  ⟨by decide, by decide, by decide,
    (readDirectory_snapshot asciiLower caseFS "src".toList
      ["App.JSX".toList, "app.jsx".toList, "lib".toList] (by decide)).2.2.1⟩

/-- C17: when the backend's `Readdirnames` fails with `e`, `ReadDirectory`
returns the empty `DirEntries` and `e` twice; when the backend's `Open` fails
with `e`, or copying the opened stream fails with `e`, `ReadFile` returns the
empty contents and `e` twice; and `ReadFile` reports no error only when both
steps succeeded. -/
theorem facade_errors_surfaced_twice (ToLower : Str → Str) (f : IntfFS) (p : Str) (e : Error) :
    (f.inner.Readdirnames (f.toAbs p) = .error e →
        f.ReadDirectory ToLower p = ({ dir := [], data := [] }, some e, some e)) ∧
      (f.inner.Open (f.toAbs p) = .error e → f.ReadFile p = ([], some e, some e)) ∧
      (f.inner.Open (f.toAbs p) = .ok (.error e) → f.ReadFile p = ([], some e, some e)) ∧
      ((f.ReadFile p).2 = (none, none) →
        ∃ bytes, f.inner.Open (f.toAbs p) = .ok (.ok bytes) ∧ (f.ReadFile p).1 = bytes) := by
  refine ⟨?_, ?_, ?_, ?_⟩
  · intro h
    unfold IntfFS.ReadDirectory
    unfold IntfFS.toAbs at h
    simp only [h]
  · intro h
    unfold IntfFS.ReadFile
    simp only [h]
  · intro h
    unfold IntfFS.ReadFile
    simp only [h]
  · unfold IntfFS.ReadFile
    cases h : f.inner.Open (f.toAbs p) with
    | error err => simp [h]
    | ok rc =>
      cases rc with
      | error err => simp [h]
      | ok bytes => simp [h]

/-- C17 at `caseFS`: its backend opens nothing and lists only `/proj/src`. -/
theorem facade_errors_surfaced_twice_witness :
    caseFS.ReadDirectory asciiLower "lib".toList =
        ({ dir := [], data := [] }, some Error.ErrNotExist, some Error.ErrNotExist) ∧
      caseFS.ReadFile "app.jsx".toList = ([], some Error.ErrNotExist, some Error.ErrNotExist) :=
  ⟨(facade_errors_surfaced_twice asciiLower caseFS "lib".toList Error.ErrNotExist).1 (by decide),
    (facade_errors_surfaced_twice asciiLower caseFS "app.jsx".toList Error.ErrNotExist).2.1
      (by decide)⟩

/-! ## C18, C19, C20: the instrumenting backend -/

theorem addStrLoop_eq (strs : List Str) (str : Str) (rest : List Str) :
    addStrLoop strs str rest = if str ∈ rest then strs else strs ++ [str] := by
  induction rest with
  | nil => simp [addStrLoop]
  | cons s t ih =>
    unfold addStrLoop
    by_cases h : s = str
    · simp [h]
    · have h' : ¬ str = s := fun e => h e.symm
      simp [h, h', ih]

/-- Function `addStr` appends a string at the end when it is absent and
returns the list unchanged otherwise. -/
theorem addStr_eq (strs : List Str) (str : Str) :
    addStr strs str = if str ∈ strs then strs else strs ++ [str] :=
  addStrLoop_eq strs str strs

theorem foldl_addStr (l : List Str) :
    ∀ acc : List Str,
      l.foldl addStr acc = acc ++ (firstOccurrences l).filter (fun y => decide (y ∉ acc)) := by
  induction l with
  | nil => intro acc; simp [firstOccurrences]
  | cons x xs ih =>
    intro acc
    rw [List.foldl_cons, ih, addStr_eq]
    by_cases hx : x ∈ acc
    · simp only [hx, ↓reduceIte, firstOccurrences, List.filter_cons, not_true_eq_false,
        decide_False, Bool.false_eq_true, List.filter_filter, List.append_cancel_left_eq]
      apply List.filter_congr
      intro y _
      by_cases hy : y ∈ acc
      · simp [hy]
      · have : y ≠ x := fun e => hy (e ▸ hx)
        simp [hy, this]
    · simp only [hx, ↓reduceIte, firstOccurrences, List.filter_cons, not_false_eq_true,
        decide_True, List.filter_filter, List.append_assoc, List.singleton_append,
        List.append_cancel_left_eq, List.cons.injEq, true_and]
      apply List.filter_congr
      intro y _
      by_cases hy : y ∈ acc
      · simp [hy]
      · by_cases hyx : y = x
        · simp [hyx]
        · simp [hy, hyx]

theorem foldl_addStr_nil (l : List Str) : l.foldl addStr [] = firstOccurrences l := by
  rw [foldl_addStr]
  simp

theorem nodup_firstOccurrences (l : List Str) : (firstOccurrences l).Nodup := by
  induction l with
  | nil => exact List.nodup_nil
  | cons x xs ih =>
    simp only [firstOccurrences, List.nodup_cons]
    refine ⟨?_, ih.filter _⟩
    intro h
    have := List.of_mem_filter h
    simp at this

/-- The three lists after a run, from any state. -/
theorem run_lists (calls : List TraceCall) :
    ∀ fsys : TraceFs,
      (fsys.run calls).openfiles = (openedPaths calls).foldl addStr fsys.openfiles ∧
      (fsys.run calls).dirnames = (listedPaths calls).foldl addStr fsys.dirnames ∧
      (fsys.run calls).failedirs = (failedPaths calls).foldl addStr fsys.failedirs := by
  induction calls with
  | nil => intro fsys; exact ⟨rfl, rfl, rfl⟩
  | cons c cs ih =>
    intro fsys
    cases c with
    | callOpen name osOpen =>
      cases osOpen with
      | error e => exact ih _
      | ok f => exact ih _
    | callReaddirnames name osOpen =>
      cases osOpen with
      | error e => exact ih _
      | ok f => exact ih _

/-- C18: after any sequence of `Open` and `Readdirnames` calls on a fresh
`TraceFs`, whatever the outcomes of the `os` calls, each of the three lists
holds no path twice and equals the sequence of paths recorded into it with
every occurrence after the first removed; `addStr` appends a string at the end
exactly when it is absent and otherwise returns the list unchanged. -/
theorem trace_lists_deduplicated (calls : List TraceCall) :
    (TraceFs.fresh.run calls).openfiles = firstOccurrences (openedPaths calls) ∧
      (TraceFs.fresh.run calls).dirnames = firstOccurrences (listedPaths calls) ∧
      (TraceFs.fresh.run calls).failedirs = firstOccurrences (failedPaths calls) ∧
      (TraceFs.fresh.run calls).openfiles.Nodup ∧
      (TraceFs.fresh.run calls).dirnames.Nodup ∧
      (TraceFs.fresh.run calls).failedirs.Nodup ∧
      (∀ (strs : List Str) (str : Str),
        addStr strs str = if str ∈ strs then strs else strs ++ [str]) := by
  obtain ⟨h1, h2, h3⟩ := run_lists calls TraceFs.fresh
  have e1 : (TraceFs.fresh.run calls).openfiles = firstOccurrences (openedPaths calls) := by
    rw [h1]
    exact foldl_addStr_nil _
  have e2 : (TraceFs.fresh.run calls).dirnames = firstOccurrences (listedPaths calls) := by
    rw [h2]
    exact foldl_addStr_nil _
  have e3 : (TraceFs.fresh.run calls).failedirs = firstOccurrences (failedPaths calls) := by
    rw [h3]
    exact foldl_addStr_nil _
  refine ⟨e1, e2, e3, ?_, ?_, ?_, addStr_eq⟩
  · rw [e1]
    exact nodup_firstOccurrences _
  · rw [e2]
    exact nodup_firstOccurrences _
  · rw [e3]
    exact nodup_firstOccurrences _

/-- C18 on a run that opens `/a` twice, fails to open `/b`, lists `/d` twice
and fails to list `/x` twice. -/
theorem trace_lists_deduplicated_witness :
    TraceFs.fresh.run
        [.callOpen "/a".toList (.ok (.ok [1])), .callReaddirnames "/d".toList (.ok (.ok [])),
          .callReaddirnames "/x".toList (.error Error.ErrNotExist),
          .callOpen "/b".toList (.error Error.ErrNotExist),
          .callOpen "/a".toList (.ok (.ok [1])), .callReaddirnames "/d".toList (.ok (.ok [])),
          .callReaddirnames "/x".toList (.error Error.ErrNotExist)] =
      { failedirs := ["/x".toList], dirnames := ["/d".toList], openfiles := ["/a".toList] } ∧
      (TraceFs.fresh.run
        [.callOpen "/a".toList (.ok (.ok [1])), .callReaddirnames "/d".toList (.ok (.ok [])),
          .callReaddirnames "/x".toList (.error Error.ErrNotExist),
          .callOpen "/b".toList (.error Error.ErrNotExist),
          .callOpen "/a".toList (.ok (.ok [1])), .callReaddirnames "/d".toList (.ok (.ok [])),
          .callReaddirnames "/x".toList (.error Error.ErrNotExist)]).openfiles.Nodup :=
  ⟨by decide, (trace_lists_deduplicated _).2.2.2.1⟩

/-- C19, the code at the failing input: `/proj/app.jsx` is a regular file, so
`os.Open` succeeds and reading its names fails; `Readdirnames` returns the
error, yet the path is recorded among the listed directories and not among
the failed ones.  The two cases the code handles as the claim says: when
`os.Open` fails the path is recorded as failed and the listed directories are
unchanged, and when names are returned the path is among the listed
directories. -/
theorem listing_failure_after_open_recorded_as_listed :
    (TraceFs.fresh.Readdirnames "/proj/app.jsx".toList
        (.ok (.error (Error.os "not a directory".toList)))).2 =
        .error (Error.os "not a directory".toList) ∧
      "/proj/app.jsx".toList ∈
        (TraceFs.fresh.Readdirnames "/proj/app.jsx".toList
          (.ok (.error (Error.os "not a directory".toList)))).1.dirnames ∧
      "/proj/app.jsx".toList ∉
        (TraceFs.fresh.Readdirnames "/proj/app.jsx".toList
          (.ok (.error (Error.os "not a directory".toList)))).1.failedirs ∧
      (∀ (fsys : TraceFs) (path : Str) (e : Error),
        (fsys.Readdirnames path (.error e)).2 = .error e ∧
        path ∈ (fsys.Readdirnames path (.error e)).1.failedirs ∧
        (fsys.Readdirnames path (.error e)).1.dirnames = fsys.dirnames) ∧
      (∀ (fsys : TraceFs) (path : Str) (names : List Str),
        (fsys.Readdirnames path (.ok (.ok names))).2 = .ok names ∧
        path ∈ (fsys.Readdirnames path (.ok (.ok names))).1.dirnames) := by
  refine ⟨by decide, by decide, by decide, ?_, ?_⟩
  · intro fsys path e
    refine ⟨rfl, ?_, rfl⟩
    simp only [TraceFs.Readdirnames, addStr_eq]
    by_cases h : path ∈ fsys.failedirs <;> simp [h]
  · intro fsys path names
    refine ⟨rfl, ?_⟩
    simp only [TraceFs.Readdirnames, addStr_eq]
    by_cases h : path ∈ fsys.dirnames <;> simp [h]

theorem line_infix_writeLines (tag : Str) (l : List Str) (p : Str) (hp : p ∈ l) :
    (tag ++ p ++ ['\n']) <:+: writeLines tag l := by
  induction l with
  | nil => simp at hp
  | cons q qs ih =>
    rcases List.mem_cons.mp hp with rfl | hq
    · exact ⟨[], writeLines tag qs, by simp [writeLines]⟩
    · obtain ⟨s, t, hst⟩ := ih hq
      exact ⟨(tag ++ q ++ ['\n']) ++ s, t, by simp [writeLines, ← hst]⟩

theorem infix_section {x w : Str} (b : Str) (h : x <:+: w) : x <:+: b ++ w ++ ['\n'] := by
  obtain ⟨s, t, hst⟩ := h
  exact ⟨b ++ s, t ++ ['\n'], by simp [← hst]⟩

theorem infix_next_section {x b : Str} (w : Str) (c : Prop) [Decidable c] (h : x <:+: b) :
    x <:+: (if c then b ++ w ++ ['\n'] else b) := by
  by_cases hc : c
  · simp only [hc, ↓reduceIte]
    obtain ⟨s, t, hst⟩ := h
    exact ⟨s, t ++ w ++ ['\n'], by simp [← hst]⟩
  · simpa [hc] using h

/-- C20 (as stated) fails: after one `Readdirnames` call whose `os.Open`
failed, the path `/x` is recorded in the failed directories, yet `ScanLog`
returns the nothing-was-opened message, which has no `try:` line for `/x`. -/
theorem scanLog_counterexample :
    TraceFs.fresh.run [.callReaddirnames "/x".toList (.error Error.ErrNotExist)] =
        { failedirs := ["/x".toList], dirnames := [], openfiles := [] } ∧
      TraceFs.ScanLog { failedirs := ["/x".toList], dirnames := [], openfiles := [] } =
        "-- nothing was opened --".toList ∧
      ¬ (("\ttry: ".toList ++ "/x".toList ++ ['\n']) <:+:
        TraceFs.ScanLog { failedirs := ["/x".toList], dirnames := [], openfiles := [] }) := by
  refine ⟨by decide, by decide, ?_⟩
  decide

/-- C20 (amended): for every `TraceFs` state, every path recorded in the
listed directories or in the opened files appears in the string `ScanLog`
returns, on a line tagged `dir:` or `file:`; every path recorded in the failed
directories appears on a line tagged `try:` when the listed directories or the
opened files are not empty; and `ScanLog` returns the nothing-was-opened
message exactly when the listed directories and the opened files are both
empty, whatever the failed directories hold. -/
theorem scanLog_covers_opened (fsys : TraceFs) :
    (∀ p ∈ fsys.dirnames, ("\tdir: ".toList ++ p ++ ['\n']) <:+: fsys.ScanLog) ∧
      (∀ p ∈ fsys.openfiles, ("\tfile: ".toList ++ p ++ ['\n']) <:+: fsys.ScanLog) ∧
      (∀ p ∈ fsys.failedirs, fsys.dirnames ≠ [] ∨ fsys.openfiles ≠ [] →
        ("\ttry: ".toList ++ p ++ ['\n']) <:+: fsys.ScanLog) ∧
      (fsys.ScanLog = "-- nothing was opened --".toList ↔
        fsys.dirnames = [] ∧ fsys.openfiles = []) := by
  have hcond : ∀ l : List Str, l.length > 0 ↔ l ≠ [] := fun l => List.length_pos
  have hzero : ∀ l : List Str, l.length = 0 ↔ l = [] := fun l => List.length_eq_zero
  refine ⟨?_, ?_, ?_, ?_⟩
  · intro p hp
    have hne : fsys.dirnames ≠ [] := List.ne_nil_of_mem hp
    unfold TraceFs.ScanLog
    simp only [hzero, hne, false_and, ↓reduceIte, hcond, ne_eq, not_false_eq_true]
    exact infix_next_section _ _ (infix_next_section _ _
      (infix_section [] (line_infix_writeLines _ _ p hp)))
  · intro p hp
    have hne : fsys.openfiles ≠ [] := List.ne_nil_of_mem hp
    unfold TraceFs.ScanLog
    simp only [hzero, hne, and_false, ↓reduceIte, hcond, ne_eq, not_false_eq_true]
    exact infix_section _ (line_infix_writeLines _ _ p hp)
  · intro p hp hsome
    have hne : fsys.failedirs ≠ [] := List.ne_nil_of_mem hp
    have hnot : ¬ (fsys.dirnames = [] ∧ fsys.openfiles = []) := by
      intro h
      rcases hsome with h1 | h2
      · exact h1 h.1
      · exact h2 h.2
    unfold TraceFs.ScanLog
    simp only [hzero, hnot, ↓reduceIte, hcond, ne_eq, hne, not_false_eq_true]
    exact infix_next_section _ _ (infix_section _ (line_infix_writeLines _ _ p hp))
  · constructor
    · intro h
      by_contra hnot
      have hhead : fsys.ScanLog.head? = some '\t' := by
        unfold TraceFs.ScanLog
        simp only [hzero, hnot, ↓reduceIte, hcond]
        cases hd : fsys.dirnames with
        | cons d ds =>
          by_cases hf : fsys.failedirs ≠ [] <;> by_cases ho : fsys.openfiles ≠ [] <;>
            simp [hf, ho, writeLines]
        | nil =>
          have ho : fsys.openfiles ≠ [] := fun h2 => hnot ⟨hd, h2⟩
          obtain ⟨o, os, hos⟩ := List.exists_cons_of_ne_nil ho
          cases hfl : fsys.failedirs with
          | nil => simp [hos, writeLines]
          | cons fd fds => simp [hos, writeLines]
      rw [h] at hhead
      exact absurd hhead (by decide)
    · intro h
      unfold TraceFs.ScanLog
      simp [h.1, h.2]

/-- The amended C20 on a state with one listed directory, one failed
directory and one opened file. -/
theorem scanLog_covers_opened_witness :
    TraceFs.ScanLog
        { failedirs := ["/x".toList], dirnames := ["/d".toList], openfiles := ["/a".toList] } =
        "\tdir: /d\n\n\ttry: /x\n\n\tfile: /a\n\n".toList ∧
      ("\ttry: ".toList ++ "/x".toList ++ ['\n']) <:+:
        TraceFs.ScanLog
          { failedirs := ["/x".toList], dirnames := ["/d".toList],
            openfiles := ["/a".toList] } :=
  ⟨by decide,
    (scanLog_covers_opened
      { failedirs := ["/x".toList], dirnames := ["/d".toList],
        openfiles := ["/a".toList] }).2.2.1
      "/x".toList (by decide) (Or.inl (by decide))⟩

/-! ## C21: `New` fails for no other reason -/

theorem indexMember_succeeds {zipRoot : Str} {es : Entries} {zf : ZipFile}
    (hmode : classify zf.Mode ≠ none)
    (hkind : ∀ k e, canonName zipRoot zf = some k → lookup es k = some e → e.K = kindOf zf) :
    ∃ es', indexMember zipRoot es zf = .ok es' := by
  unfold indexMember
  cases hc : classify zf.Mode with
  | none => exact absurd hc hmode
  | some kind =>
    have hk : kindOf zf = kind := by simp [kindOf, hc]
    by_cases hr : isRooted (cleanupName zf.Name) zipRoot = true
    · simp only [hr, Bool.not_true, Bool.false_eq_true, ↓reduceIte]
      have hcan : canonName zipRoot zf = some (stripRoot (cleanupName zf.Name) zipRoot) := by
        simp [canonName, hr]
      cases hl : lookup es (stripRoot (cleanupName zf.Name) zipRoot) with
      | none => exact ⟨_, rfl⟩
      | some entry =>
        have := hkind _ entry hcan hl
        rw [hk] at this
        simp only [this, ne_eq, not_true_eq_false, ↓reduceIte]
        exact ⟨_, rfl⟩
    · simp only [hr, Bool.not_false, ↓reduceIte]
      exact ⟨_, rfl⟩

theorem indexAll_succeeds {zipRoot : Str} (ms : List ZipFile) :
    ∀ es : Entries, (∀ m ∈ ms, classify m.Mode ≠ none) →
      (∀ m ∈ ms, ∀ k e, canonName zipRoot m = some k → lookup es k = some e →
        e.K = kindOf m) →
      (∀ m1 ∈ ms, ∀ m2 ∈ ms, ∀ k, canonName zipRoot m1 = some k →
        canonName zipRoot m2 = some k → kindOf m1 = kindOf m2) →
      ∃ es', indexAll zipRoot es ms = .ok es' := by
  induction ms with
  | nil => intro es _ _ _; exact ⟨es, rfl⟩
  | cons a t ih =>
    intro es hmode hes hpair
    obtain ⟨es1, h1⟩ := indexMember_succeeds (hmode a (by simp))
      (fun k e hc hl => hes a (by simp) k e hc hl)
    unfold indexAll
    simp only [h1]
    refine ih es1 (fun m hm => hmode m (by simp [hm])) ?_
      (fun m1 h1' m2 h2' => hpair m1 (by simp [h1']) m2 (by simp [h2']))
    intro m hm k e hc hl
    have hstep := lookup_indexMember h1 k
    rw [hl] at hstep
    cases hl0 : lookup es k with
    | some e0 =>
      simp only [hl0, Option.some.injEq] at hstep
      rw [hstep]
      exact hes m (by simp [hm]) k e0 hc hl0
    | none =>
      simp only [hl0] at hstep
      by_cases hca : canonName zipRoot a = some k
      · simp only [hca, ↓reduceIte, Option.some.injEq] at hstep
        rw [hstep]
        exact hpair a (by simp) m (by simp [hm]) k hca hc
      · simp [hca] at hstep

theorem classify_ne_none_iff (mode : Nat) :
    classify mode ≠ none ↔
      mode &&& ModeType = 0 ∨ mode &&& ModeType = ModeDir ∨ mode &&& ModeType = ModeSymlink := by
  unfold classify
  by_cases h0 : mode &&& ModeType = 0
  · simp [h0]
  · by_cases h1 : mode &&& ModeType = ModeDir
    · simp only [h0, ↓reduceIte, false_or]
      simp only [h1, ↓reduceIte, true_or, iff_true]
      exact fun h => Option.noConfusion h
    · by_cases h2 : mode &&& ModeType = ModeSymlink
      · simp only [h0, h1, ↓reduceIte, false_or]
        simp only [h2, ↓reduceIte, iff_true]
        exact fun h => Option.noConfusion h
      · simp [h0, h1, h2]

/-- C21: on a readable archive in which the type bits of every member are
those of a file, a directory or a symlink, and in which no two members under
the in-archive root have one canonical name and different kinds, `New`
returns a file system; a member listed before its parent directory, or with
no member for its parent directory at all, does not make it fail. -/
theorem new_succeeds_without_panic (ms : List ZipFile) (fsRoot zipRoot cwd : Str)
    (hmode : ∀ m ∈ ms, m.Mode &&& ModeType = 0 ∨ m.Mode &&& ModeType = ModeDir ∨
      m.Mode &&& ModeType = ModeSymlink)
    (hkind : ∀ m1 ∈ ms, ∀ m2 ∈ ms, canonName (cleanupName zipRoot) m1 ≠ none →
      canonName (cleanupName zipRoot) m1 = canonName (cleanupName zipRoot) m2 →
      classify m1.Mode = classify m2.Mode) :
    ∃ zfs, New (.ok ms) fsRoot zipRoot cwd = .ok zfs := by
  have hm : ∀ m ∈ ms, classify m.Mode ≠ none :=
    fun m h => (classify_ne_none_iff m.Mode).mpr (hmode m h)
  obtain ⟨es, hes⟩ := @indexAll_succeeds (cleanupName zipRoot) ms []
    hm (fun m _ k e _ hl => by simp [lookup] at hl)
    (fun m1 h1 m2 h2 k hc1 hc2 => by
      have := hkind m1 h1 m2 h2 (by simp [hc1]) (by rw [hc1, hc2])
      simp [kindOf, this])
  exact ⟨{ cwd := cwd, rootDir := Dir fsRoot, root := fsRoot, entries := es },
    by simp [New, hes]⟩

/-- C21 at `reversedArchive`, whose file is listed before its directory
`lib`, while the directory `pkg/` above `lib` has no member at all. -/
theorem new_succeeds_without_panic_witness :
    membersBefore (cleanupName "pkg/".toList) "lib".toList reversedArchive =
        [⟨"pkg/lib/index.js".toList, fileMode, [105, 59]⟩] ∧
      (∀ m ∈ reversedArchive, canonName (cleanupName "pkg/".toList) m ≠ some []) ∧
      ∃ zfs, New (.ok reversedArchive) "/proj/node_modules/pkg".toList "pkg/".toList
        "/proj".toList = .ok zfs :=
  ⟨by decide, by decide,
    new_succeeds_without_panic reversedArchive "/proj/node_modules/pkg".toList "pkg/".toList
      "/proj".toList (by decide) (by decide)⟩

/-! ## C22 and C23: the keys of the index -/

theorem canonName_eq_some_iff (zipRoot : Str) (zf : ZipFile) (k : Str) :
    canonName zipRoot zf = some k ↔
      isRooted (cleanupName zf.Name) zipRoot = true ∧
        stripRoot (cleanupName zf.Name) zipRoot = k := by
  unfold canonName
  by_cases hr : isRooted (cleanupName zf.Name) zipRoot = true
  · simp [hr]
  · simp [hr]

/-- C22: when `New` succeeds, the keys of the index are exactly the canonical
names `stripRoot(cleanupName(m.Name), zipRoot)` of the members `m` rooted under
the cleaned in-archive root, so a member that is not rooted gives no key; and
the name, kind and backing member of each entry are those of the first member
in archive order with that canonical name. -/
theorem index_holds_rooted_members (ms : List ZipFile) (fsRoot zipRoot cwd : Str) (zfs : ZipFS)
    (hnew : New (.ok ms) fsRoot zipRoot cwd = .ok zfs) :
    (∀ k, (lookup zfs.entries k).isSome = true ↔
        ∃ m ∈ ms, isRooted (cleanupName m.Name) (cleanupName zipRoot) = true ∧
          stripRoot (cleanupName m.Name) (cleanupName zipRoot) = k) ∧
      (∀ k e, lookup zfs.entries k = some e →
        ∃ pre m0 post, ms = pre ++ m0 :: post ∧
          (∀ x ∈ pre, canonName (cleanupName zipRoot) x ≠ some k) ∧
          canonName (cleanupName zipRoot) m0 = some k ∧
          e.Name = k ∧ classify m0.Mode = some e.K ∧ e.F = m0) := by
  constructor
  · intro k
    constructor
    · intro hs
      obtain ⟨e, he⟩ := Option.isSome_iff_exists.mp hs
      obtain ⟨m0, post, hsplit, hm0, _, _⟩ := New_lookup_some hnew he
      refine ⟨m0, ?_, (canonName_eq_some_iff _ _ _).mp hm0⟩
      rw [hsplit]
      simp
    · rintro ⟨m, hm, hk⟩
      obtain ⟨_, _, _, _, _, _, _, _, hl⟩ :=
        New_entry_of_member hnew hm ((canonName_eq_some_iff _ _ _).mpr hk)
      rw [hl]
      rfl
  · intro k e he
    obtain ⟨m0, post, hsplit, hm0, hcl, hentry⟩ := New_lookup_some hnew he
    refine ⟨membersBefore (cleanupName zipRoot) k ms, m0, post, hsplit, ?_, hm0, ?_, ?_, ?_⟩
    · intro x hx
      exact not_canon_of_mem_membersBefore hx
    · rw [hentry]
    · rw [hentry]
      exact hcl
    · rw [hentry]

/-- C22 at `dupArchive`: the one key is `a.js`, and its entry is backed by the
first of the two members of that name. -/
theorem index_holds_rooted_members_witness :
    New (.ok dupArchive) "/m".toList "pkg/".toList "/".toList = .ok dupFS ∧
      ((lookup dupFS.entries "a.js".toList).isSome = true ↔
        ∃ m ∈ dupArchive, isRooted (cleanupName m.Name) (cleanupName "pkg/".toList) = true ∧
          stripRoot (cleanupName m.Name) (cleanupName "pkg/".toList) = "a.js".toList) ∧
      ∃ pre m0 post, dupArchive = pre ++ m0 :: post ∧
        (∀ x ∈ pre, canonName (cleanupName "pkg/".toList) x ≠ some "a.js".toList) ∧
        canonName (cleanupName "pkg/".toList) m0 = some "a.js".toList ∧
        "a.js".toList = "a.js".toList ∧ classify m0.Mode = some Kind.fil ∧
        (⟨"pkg/a.js".toList, fileMode, [1]⟩ : ZipFile) = m0 :=
  have h := index_holds_rooted_members dupArchive "/m".toList "pkg/".toList "/".toList dupFS
    (by decide)
  ⟨by decide, h.1 "a.js".toList,
    h.2 "a.js".toList ⟨"a.js".toList, Kind.fil, ⟨"pkg/a.js".toList, fileMode, [1]⟩, []⟩
      (by decide)⟩

/-- C23 (as stated) fails: in the file system of `rootlessArchive` the entry
`a.js` has a non-empty name and its parent directory name, the empty name, is
no key of the index; and in the file system of `fileParentArchive` the parent
`a` of the entry `a/b` is a key whose entry has kind file. -/
theorem parent_invariant_counterexample :
    New (.ok rootlessArchive) "/m".toList "pkg/".toList "/".toList = .ok rootlessFS ∧
      (lookup rootlessFS.entries "a.js".toList).isSome = true ∧
      dirNameOf "a.js".toList = [] ∧
      lookup rootlessFS.entries [] = none ∧
      New (.ok fileParentArchive) "/m".toList "pkg/".toList "/".toList = .ok fileParentFS ∧
      (lookup fileParentFS.entries "a/b".toList).isSome = true ∧
      dirNameOf "a/b".toList = "a".toList ∧
      (lookup fileParentFS.entries "a".toList).map (fun e => e.K) = some Kind.fil := by
  decide

/-- C23 (amended): in a file system `New` has built, the parent directory
name of a canonical name `k` (so of every entry with a non-empty name) is a
key of the index exactly when some member of the archive has it as canonical
name; its entry then has the kind of that member, which is directory exactly
when the member is a directory. -/
theorem parent_entry_follows_members (ms : List ZipFile) (fsRoot zipRoot cwd : Str)
    (zfs : ZipFS) (k : Str) (hnew : New (.ok ms) fsRoot zipRoot cwd = .ok zfs) :
    ((lookup zfs.entries (dirNameOf k)).isSome = true ↔
        ∃ m ∈ ms, canonName (cleanupName zipRoot) m = some (dirNameOf k)) ∧
      (∀ m ∈ ms, canonName (cleanupName zipRoot) m = some (dirNameOf k) →
        ∃ d, lookup zfs.entries (dirNameOf k) = some d ∧
          (d.K = Kind.dir ↔ classify m.Mode = some Kind.dir)) := by
  constructor
  · constructor
    · intro hs
      obtain ⟨e, he⟩ := Option.isSome_iff_exists.mp hs
      obtain ⟨m0, post, hsplit, hm0, _, _⟩ := New_lookup_some hnew he
      refine ⟨m0, ?_, hm0⟩
      rw [hsplit]
      simp
    · rintro ⟨m, hm, hc⟩
      obtain ⟨_, _, _, _, _, _, _, _, hl⟩ := New_entry_of_member hnew hm hc
      rw [hl]
      rfl
  · intro m hm hc
    obtain ⟨_, m0, _, _, _, _, hkk, hcl, hl⟩ := New_entry_of_member hnew hm hc
    refine ⟨_, hl, ?_⟩
    show kindOf m0 = Kind.dir ↔ classify m.Mode = some Kind.dir
    rw [hkk, hcl]
    simp

/-- The amended C23 at `rootedArchive`: the parent of `a.js` is the
in-archive root, which has the directory member `pkg/`. -/
theorem parent_entry_follows_members_witness :
    New (.ok rootedArchive) "/m".toList "pkg/".toList "/".toList = .ok rootedFS ∧
      canonName (cleanupName "pkg/".toList) ⟨"pkg/".toList, dirMode, []⟩ =
        some (dirNameOf "a.js".toList) ∧
      ∃ d, lookup rootedFS.entries (dirNameOf "a.js".toList) = some d ∧
        (d.K = Kind.dir ↔ classify dirMode = some Kind.dir) :=
  ⟨by decide, by decide,
    (parent_entry_follows_members rootedArchive "/m".toList "pkg/".toList "/".toList rootedFS
      "a.js".toList (by decide)).2 ⟨"pkg/".toList, dirMode, []⟩ (by decide) (by decide)⟩

/-! ## C25: applying `cleanupName` twice -/

theorem kept_of_normal {l : List Str} (h : NormalElems l) :
    ∀ e ∈ l, e ≠ [] ∧ e ≠ ['.'] ∧ '/' ∉ e := by
  obtain ⟨n, rs, rfl, hrs⟩ := h
  intro e he
  rcases List.mem_append.mp he with hd | hr
  · have := List.eq_of_mem_replicate hd
    subst this
    decide
  · obtain ⟨h1, h2, _, h4⟩ := hrs e hr
    exact ⟨h1, h2, h4⟩

theorem cleanElems_skip (rooted : Bool) (a : Str) (t out : List Str)
    (h : a = [] ∨ a = ['.']) : cleanElems rooted (a :: t) out = cleanElems rooted t out := by
  cases out <;> simp only [cleanElems, if_pos h]

theorem cleanElems_push (rooted : Bool) (a : Str) (t out : List Str)
    (h1 : ¬ (a = [] ∨ a = ['.'])) (h2 : a ≠ ['.', '.']) :
    cleanElems rooted (a :: t) out = cleanElems rooted t (a :: out) := by
  cases out <;> simp only [cleanElems, if_neg h1, if_neg h2]

theorem cleanElems_dotdot_nil (rooted : Bool) (t : List Str) :
    cleanElems rooted (['.', '.'] :: t) [] =
      if rooted = true then cleanElems rooted t [] else cleanElems rooted t [['.', '.']] := by
  simp [cleanElems]

theorem cleanElems_dotdot_cons (rooted : Bool) (t : List Str) (top : Str) (below : List Str) :
    cleanElems rooted (['.', '.'] :: t) (top :: below) =
      if top = ['.', '.'] then cleanElems rooted t (['.', '.'] :: top :: below)
      else cleanElems rooted t below := by
  simp [cleanElems]

/-- The stack of `cleanElems` keeps its shape: real elements on top of `..`
elements, and no `..` element on a rooted path. -/
theorem cleanElems_shape (rooted : Bool) (es : List Str) :
    ∀ out : List Str, (∀ e ∈ es, '/' ∉ e) →
      (∃ (n : Nat) (rs : List Str), out = rs ++ List.replicate n ['.', '.'] ∧
        (∀ e ∈ rs, RealElem e) ∧ (rooted = true → n = 0)) →
      ∃ (n : Nat) (rs : List Str),
        cleanElems rooted es out = rs ++ List.replicate n ['.', '.'] ∧
        (∀ e ∈ rs, RealElem e) ∧ (rooted = true → n = 0) := by
  induction es with
  | nil => intro out _ h; simpa [cleanElems] using h
  | cons a t ih =>
    intro out hes hout
    have ht : ∀ e ∈ t, '/' ∉ e := fun e he => hes e (by simp [he])
    have ha : '/' ∉ a := hes a (by simp)
    obtain ⟨n, rs, hshape, hrs, hroot⟩ := hout
    by_cases h1 : a = [] ∨ a = ['.']
    · rw [cleanElems_skip rooted a t out h1]
      exact ih out ht ⟨n, rs, hshape, hrs, hroot⟩
    · by_cases h2 : a = ['.', '.']
      · subst h2
        cases rs with
        | nil =>
          cases n with
          | zero =>
            have hout : out = [] := by simpa using hshape
            subst hout
            rw [cleanElems_dotdot_nil]
            by_cases hr : rooted = true
            · rw [if_pos hr]
              exact ih _ ht ⟨0, [], rfl, by simp, fun _ => rfl⟩
            · rw [if_neg hr]
              exact ih _ ht ⟨1, [], rfl, by simp, fun h => absurd h hr⟩
          | succ k =>
            have hout : out = ['.', '.'] :: List.replicate k ['.', '.'] := by
              simpa [List.replicate_succ] using hshape
            subst hout
            rw [cleanElems_dotdot_cons, if_pos rfl]
            refine ih _ ht ⟨k + 2, [], by simp [List.replicate_succ], by simp, ?_⟩
            intro hr
            have := hroot hr
            omega
        | cons r rs' =>
          have hout : out = r :: (rs' ++ List.replicate n ['.', '.']) := by
            simpa using hshape
          subst hout
          have hr : r ≠ ['.', '.'] := (hrs r (by simp)).2.2.1
          rw [cleanElems_dotdot_cons, if_neg hr]
          exact ih _ ht ⟨n, rs', rfl, fun e he => hrs e (by simp [he]), hroot⟩
      · rw [cleanElems_push rooted a t out h1 h2]
        refine ih _ ht ⟨n, a :: rs, by simp [hshape], ?_, hroot⟩
        intro e he
        rcases List.mem_cons.mp he with rfl | he
        · exact ⟨fun h => h1 (Or.inl h), fun h => h1 (Or.inr h), h2, ha⟩
        · exact hrs e he

theorem cleanElems_real (rooted : Bool) (rs : List Str) :
    ∀ out : List Str, (∀ e ∈ rs, RealElem e) → cleanElems rooted rs out = rs.reverse ++ out := by
  induction rs with
  | nil => intro out _; simp [cleanElems]
  | cons a t ih =>
    intro out h
    obtain ⟨h1, h2, h3, _⟩ := h a (by simp)
    rw [cleanElems_push rooted a t out (by simp [h1, h2]) h3,
      ih _ (fun e he => h e (by simp [he]))]
    simp

theorem cleanElems_dots (n : Nat) (es : List Str) :
    ∀ k : Nat, cleanElems false (List.replicate n ['.', '.'] ++ es) (List.replicate k ['.', '.']) =
      cleanElems false es (List.replicate (n + k) ['.', '.']) := by
  induction n with
  | zero => intro k; simp
  | succ m ih =>
    intro k
    rw [List.replicate_succ, List.cons_append]
    cases k with
    | zero =>
      rw [List.replicate_zero, cleanElems_dotdot_nil, if_neg (by decide)]
      have := ih 1
      simp only [List.replicate_succ, List.replicate_zero] at this
      rw [this]
      simp [List.replicate_succ]
    | succ j =>
      rw [List.replicate_succ, cleanElems_dotdot_cons, if_pos rfl]
      have := ih (j + 2)
      simp only [List.replicate_succ] at this
      rw [this]
      have hn : m + 1 + (j + 1) = m + (j + 2) := by omega
      rw [hn]

/-- On normal elements, not rooted, `cleanElems` writes every element. -/
theorem cleanElems_normal {l : List Str} (h : NormalElems l) :
    cleanElems false l [] = l.reverse := by
  obtain ⟨n, rs, rfl, hrs⟩ := h
  have := cleanElems_dots n rs 0
  simp only [List.replicate_zero, Nat.add_zero] at this
  rw [this, cleanElems_real false rs _ hrs]
  simp

theorem cleanElems_append_empty (rooted : Bool) (es : List Str) :
    ∀ out : List Str, cleanElems rooted (es ++ [[]]) out = cleanElems rooted es out := by
  induction es with
  | nil => intro out; simp [cleanElems]
  | cons a t ih =>
    intro out
    rw [List.cons_append]
    by_cases h1 : a = [] ∨ a = ['.']
    · rw [cleanElems_skip _ _ _ _ h1, cleanElems_skip _ _ _ _ h1]
      exact ih out
    · by_cases h2 : a = ['.', '.']
      · subst h2
        cases out with
        | nil =>
          rw [cleanElems_dotdot_nil, cleanElems_dotdot_nil]
          by_cases hr : rooted = true
          · rw [if_pos hr, if_pos hr]
            exact ih _
          · rw [if_neg hr, if_neg hr]
            exact ih _
        | cons top below =>
          rw [cleanElems_dotdot_cons, cleanElems_dotdot_cons]
          by_cases h3 : top = ['.', '.']
          · rw [if_pos h3, if_pos h3]
            exact ih _
          · rw [if_neg h3, if_neg h3]
            exact ih _
      · rw [cleanElems_push _ _ _ _ h1 h2, cleanElems_push _ _ _ _ h1 h2]
        exact ih _

theorem splitSlash_no_slash_self (e : Str) (he : '/' ∉ e) : splitSlash e = [e] := by
  induction e with
  | nil => rfl
  | cons c r ih =>
    have hc : c ≠ '/' := fun h => he (by simp [h])
    have hr : '/' ∉ r := fun h => he (by simp [h])
    simp [splitSlash, hc, ih hr]

theorem splitSlash_append_slash (e rest : Str) (he : '/' ∉ e) :
    splitSlash (e ++ '/' :: rest) = e :: splitSlash rest := by
  induction e with
  | nil => simp [splitSlash]
  | cons c r ih =>
    have hc : c ≠ '/' := fun h => he (by simp [h])
    have hr : '/' ∉ r := fun h => he (by simp [h])
    simp [splitSlash, hc, ih hr]

/-- Splitting a join of elements without `/` gives the elements back. -/
theorem splitSlash_joinSlash (l : List Str) (hl : ∀ e ∈ l, '/' ∉ e) (hne : l ≠ []) :
    splitSlash (joinSlash l) = l ∧ splitSlash (joinSlash l ++ ['/']) = l ++ [[]] := by
  induction l with
  | nil => exact absurd rfl hne
  | cons e t ih =>
    have he : '/' ∉ e := hl e (by simp)
    cases t with
    | nil =>
      constructor
      · exact splitSlash_no_slash_self e he
      · simp only [joinSlash]
        rw [splitSlash_append_slash e [] he]
        rfl
    | cons e2 es =>
      have ht := ih (fun x hx => hl x (by simp [hx])) (by simp)
      constructor
      · rw [joinSlash_cons_cons, splitSlash_append_slash e _ he, ht.1]
      · rw [joinSlash_cons_cons, List.append_assoc, List.cons_append,
          splitSlash_append_slash e _ he, ht.2]
        rfl

/-- The model of `filepath.Clean` returns a join of normal elements, and the
same join followed by `/`, as the join. -/
theorem Clean_joinSlash {l : List Str} (h : NormalElems l) (hne : l ≠ []) :
    Clean (joinSlash l) = joinSlash l ∧ Clean (joinSlash l ++ ['/']) = joinSlash l := by
  have hk := kept_of_normal h
  have hs : ∀ e ∈ l, '/' ∉ e := fun e he => (hk e he).2.2
  obtain ⟨c, rest, hj, hc⟩ := joinSlash_head l hk hne
  have hroot : hasPrefix (joinSlash l) ['/'] = false := by
    rw [hj]
    cases hb : hasPrefix (c :: rest) ['/'] with
    | false => rfl
    | true =>
      obtain ⟨r, hr⟩ := (hasPrefix_iff _ _).mp hb
      simp only [List.cons_append, List.nil_append, List.cons.injEq] at hr
      exact absurd hr.1 hc
  have hroot2 : hasPrefix (joinSlash l ++ ['/']) ['/'] = false := by
    rw [hj]
    cases hb : hasPrefix (c :: rest ++ ['/']) ['/'] with
    | false => rfl
    | true =>
      obtain ⟨r, hr⟩ := (hasPrefix_iff _ _).mp hb
      simp only [List.cons_append, List.nil_append, List.cons.injEq] at hr
      exact absurd hr.1 hc
  have hjne : joinSlash l ≠ [] := by rw [hj]; simp
  obtain ⟨hs1, hs2⟩ := splitSlash_joinSlash l hs hne
  constructor
  · unfold Clean
    simp only [hroot, hs1, cleanElems_normal h, List.reverse_reverse, Bool.false_eq_true,
      ↓reduceIte, hjne]
  · unfold Clean
    simp only [hroot2, hs2, cleanElems_append_empty, cleanElems_normal h, List.reverse_reverse,
      Bool.false_eq_true, ↓reduceIte, hjne]

/-- `cleanupName` returns a join of normal elements as it stands. -/
theorem cleanupName_joinSlash {l : List Str} (h : NormalElems l) (hne : l ≠ []) :
    cleanupName (joinSlash l) = joinSlash l := by
  have hk := kept_of_normal h
  unfold cleanupName
  simp only [(Clean_joinSlash h hne).1, joinSlash_no_dot_slash l hk, Bool.false_eq_true,
    ↓reduceIte]
  rw [trimLeftSlash_of_head (joinSlash_head? l hk),
    trimRightSlash_of_last (joinSlash_getLast? l hk)]

/-- The shape of every canonical name: `.`, or normal elements joined by `/`. -/
theorem cleanupName_normal (name : Str) :
    cleanupName name = ['.'] ∨
      ∃ l : List Str, NormalElems l ∧ cleanupName name = joinSlash l := by
  obtain ⟨n, rs, hshape, hrs, _⟩ := cleanElems_shape (hasPrefix name ['/']) (splitSlash name) []
    (splitSlash_no_slash name) ⟨0, [], rfl, by simp, fun _ => rfl⟩
  have hnorm : NormalElems (cleanElems (hasPrefix name ['/']) (splitSlash name) []).reverse := by
    refine ⟨n, rs.reverse, ?_, fun e he => hrs e (List.mem_reverse.mp he)⟩
    rw [hshape, List.reverse_append, List.reverse_replicate]
  generalize hl : (cleanElems (hasPrefix name ['/']) (splitSlash name) []).reverse = l at hnorm
  have hkept := kept_of_normal hnorm
  unfold cleanupName Clean
  simp only [hl]
  cases hr : hasPrefix name ['/'] with
  | true =>
    right
    refine ⟨l, hnorm, ?_⟩
    simp only [↓reduceIte]
    have h1 : hasPrefix ('/' :: joinSlash l) ['.', '/'] = false := by
      cases hb : hasPrefix ('/' :: joinSlash l) ['.', '/'] with
      | false => rfl
      | true =>
        obtain ⟨r, hr'⟩ := (hasPrefix_iff _ _).mp hb
        simp only [List.cons_append, List.cons.injEq] at hr'
        exact absurd hr'.1 (by decide)
    rw [h1]
    simp only [Bool.false_eq_true, ↓reduceIte]
    rw [trimLeftSlash_slash, trimLeftSlash_of_head (joinSlash_head? l hkept),
      trimRightSlash_of_last (joinSlash_getLast? l hkept)]
  | false =>
    simp only [Bool.false_eq_true, ↓reduceIte]
    by_cases hb : joinSlash l = []
    · left
      simp only [hb, ↓reduceIte]
      decide
    · right
      refine ⟨l, hnorm, ?_⟩
      simp only [hb, ↓reduceIte, joinSlash_no_dot_slash l hkept, Bool.false_eq_true]
      rw [trimLeftSlash_of_head (joinSlash_head? l hkept),
        trimRightSlash_of_last (joinSlash_getLast? l hkept)]

/-- C25 (as stated) fails: `cleanupName("/")` is the empty string, and
`cleanupName("")` is `.`. -/
theorem cleanupName_idempotent_counterexample :
    cleanupName "/".toList = [] ∧
      cleanupName (cleanupName "/".toList) = ".".toList ∧
      cleanupName (cleanupName "/".toList) ≠ cleanupName "/".toList := by
  decide

/-- C25 (amended): for every name whose canonical form is not the empty
string, `cleanupName(cleanupName(name)) == cleanupName(name)`; when the
canonical form is the empty string (for a name that cleans to `/`, such as
`/` itself), applying `cleanupName` again gives `.`; the inputs `""` and `.`
have the canonical form `.`, a fixed point. -/
theorem cleanupName_idempotent_nonempty (name : Str) :
    (cleanupName name ≠ [] → cleanupName (cleanupName name) = cleanupName name) ∧
      (cleanupName name = [] → cleanupName (cleanupName name) = ['.']) ∧
      cleanupName [] = ['.'] ∧ cleanupName ['.'] = ['.'] := by
  refine ⟨?_, ?_, by decide, by decide⟩
  · intro hne
    rcases cleanupName_normal name with h | ⟨l, hl, h⟩
    · rw [h]
      decide
    · rw [h]
      apply cleanupName_joinSlash hl
      intro hnil
      apply hne
      rw [h, hnil]
      rfl
  · intro h
    rw [h]
    decide

/-- The amended C25 at `./pkg//lib/`, whose canonical form is `pkg/lib`. -/
theorem cleanupName_idempotent_nonempty_witness :
    cleanupName "./pkg//lib/".toList = "pkg/lib".toList ∧
      cleanupName (cleanupName "./pkg//lib/".toList) = cleanupName "./pkg//lib/".toList :=
  ⟨by decide, (cleanupName_idempotent_nonempty "./pkg//lib/".toList).1 (by decide)⟩

/-! ## C24: the children lists -/

/-- A join of elements without `/` splits at a `/` into two joins. -/
theorem joinSlash_split (l : List Str) (hl : ∀ e ∈ l, '/' ∉ e) :
    ∀ a b : Str, joinSlash l = a ++ '/' :: b →
      ∃ l1 l2, l = l1 ++ l2 ∧ l1 ≠ [] ∧ l2 ≠ [] ∧ a = joinSlash l1 ∧ b = joinSlash l2 := by
  induction l with
  | nil =>
    intro a b h
    simp [joinSlash] at h
  | cons e t ih =>
    intro a b h
    have he : '/' ∉ e := hl e (by simp)
    cases t with
    | nil =>
      simp only [joinSlash] at h
      exact absurd (by rw [h]; simp) he
    | cons e2 es =>
      rw [joinSlash_cons_cons] at h
      rcases List.append_eq_append_iff.mp h with ⟨a', ha, hrest⟩ | ⟨c', hc, hrest⟩
      · cases a' with
        | nil =>
          simp only [List.nil_append, List.cons.injEq, true_and] at hrest
          refine ⟨[e], e2 :: es, rfl, by simp, by simp, ?_, hrest.symm⟩
          simpa [joinSlash] using ha
        | cons x a'' =>
          simp only [List.cons_append, List.cons.injEq] at hrest
          obtain ⟨hx, hJ⟩ := hrest
          subst hx
          obtain ⟨l1, l2, hsplit, h1, h2, ha1, hb2⟩ :=
            ih (fun x hx => hl x (by simp [hx])) a'' b hJ
          refine ⟨e :: l1, l2, by simp [hsplit], by simp, h2, ?_, hb2⟩
          obtain ⟨y, ys, hy⟩ := List.exists_cons_of_ne_nil h1
          rw [ha, ha1, hy, joinSlash_cons_cons]
      · cases c' with
        | nil =>
          simp only [List.append_nil, List.nil_append, List.cons.injEq, true_and] at hc hrest
          refine ⟨[e], e2 :: es, rfl, by simp, by simp, ?_, hrest⟩
          simpa [joinSlash] using hc.symm
        | cons x c'' =>
          simp only [List.cons_append, List.cons.injEq] at hrest
          exact absurd (by rw [hc, ← hrest.1]; simp) he

theorem normal_back {l1 l2 : List Str} (h : NormalElems (l1 ++ l2)) : NormalElems l2 := by
  obtain ⟨n, rs, hshape, hrs⟩ := h
  rcases List.append_eq_append_iff.mp hshape with ⟨a', ha, hrest⟩ | ⟨c', hc, hrest⟩
  · refine ⟨a'.length, rs, ?_, hrs⟩
    rw [hrest]
    congr 1
    rw [List.eq_replicate_iff]
    refine ⟨rfl, fun b hb => ?_⟩
    exact List.eq_of_mem_replicate (ha ▸ List.mem_append_right l1 hb)
  · exact ⟨0, l2, by simp, fun e he => hrs e (by rw [hrest]; simp [he])⟩

theorem normal_front {l1 l2 : List Str} (h : NormalElems (l1 ++ l2)) : NormalElems l1 := by
  obtain ⟨n, rs, hshape, hrs⟩ := h
  rcases List.append_eq_append_iff.mp hshape with ⟨a', ha, hrest⟩ | ⟨c', hc, hrest⟩
  · refine ⟨l1.length, [], ?_, by simp⟩
    rw [List.append_nil, List.eq_replicate_iff]
    refine ⟨rfl, fun b hb => ?_⟩
    exact List.eq_of_mem_replicate (ha ▸ List.mem_append_left a' hb)
  · exact ⟨n, c', hc, fun e he => hrs e (by rw [hrest]; simp [he])⟩

/-- The canonical name of a member under the root is a join of normal
elements (the empty join for the root itself). -/
theorem canonName_normal {zipRoot : Str} {zf : ZipFile} {n : Str}
    (h : canonName zipRoot zf = some n) : ∃ l, NormalElems l ∧ n = joinSlash l := by
  obtain ⟨hr, hs⟩ := (canonName_eq_some_iff _ _ _).mp h
  rcases (isRooted_iff _ _).mp hr with heq | ⟨rest, hrest⟩
  · refine ⟨[], ⟨0, [], rfl, by simp⟩, ?_⟩
    rw [← hs, heq, stripRoot_self]
    rfl
  · rcases cleanupName_normal zf.Name with hdot | ⟨l, hl, hj⟩
    · rw [hdot] at hrest
      have : '/' ∈ (['.'] : Str) := by rw [hrest]; simp
      exact absurd this (by decide)
    · have hk := kept_of_normal hl
      rw [hj] at hrest
      obtain ⟨l1, l2, hsplit, _, h2, _, hb⟩ :=
        joinSlash_split l (fun e he => (hk e he).2.2) _ _ hrest
      have hn2 : NormalElems l2 := normal_back (hsplit ▸ hl)
      refine ⟨l2, hn2, ?_⟩
      rw [← hs, hj, hrest]
      simp only [stripRoot, trimPrefix_append, trimLeftSlash_slash]
      rw [hb]
      exact trimLeftSlash_of_head (joinSlash_head? l2 (kept_of_normal hn2))

theorem joinSlash_concat (init : List Str) (e : Str) (hne : init ≠ []) :
    joinSlash (init ++ [e]) = joinSlash init ++ '/' :: e := by
  induction init with
  | nil => exact absurd rfl hne
  | cons x t ih =>
    cases t with
    | nil => rfl
    | cons y ys =>
      have := ih (by simp)
      rw [List.cons_append, List.cons_append, joinSlash_cons_cons, ← List.cons_append, this,
        joinSlash_cons_cons]
      simp

/-- The base name of a path that ends in an element `e` (non-empty, without
`/`), alone or after a `/`, is `e`. -/
theorem Base_last_elem (p e : Str) (he0 : e ≠ []) (hes : '/' ∉ e) :
    Base e = e ∧ Base (p ++ '/' :: e) = e := by
  have hlast : ∀ s : Str, (s ++ e).getLast? ≠ some '/' := by
    intro s h
    have hmem : '/' ∈ e := by
      obtain ⟨c, r, hcr⟩ := List.exists_cons_of_ne_nil he0
      rw [List.getLast?_append, hcr] at h
      cases hg : (c :: r).getLast? with
      | none => simp at hg
      | some x =>
        rw [hg] at h
        have h : x = '/' := by simpa [Option.or] using h
        subst h
        rw [← hcr] at hg
        exact List.mem_of_getLast?_eq_some hg
    exact hes hmem
  have hall : ∀ a ∈ e.reverse, (fun c : Char => c != '/') a = true := by
    intro a ha
    have : a ≠ '/' := fun h => hes (h ▸ List.mem_reverse.mp ha)
    simpa using this
  constructor
  · unfold Base
    simp only [he0, ↓reduceIte]
    rw [trimRightSlash_of_last (by simpa using hlast [])]
    have : e.reverse.takeWhile (fun c => c != '/') = e.reverse := by
      rw [List.takeWhile_eq_self_iff]
      exact hall
    rw [this, List.reverse_reverse]
    simp [he0]
  · unfold Base
    have hne : p ++ '/' :: e ≠ [] := by simp
    simp only [hne, ↓reduceIte]
    have hl : (p ++ '/' :: e).getLast? ≠ some '/' := by
      have := hlast (p ++ ['/'])
      simpa using this
    rw [trimRightSlash_of_last hl]
    have : (p ++ '/' :: e).reverse.takeWhile (fun c => c != '/') = e.reverse := by
      rw [List.reverse_append, List.reverse_cons, List.append_assoc,
        List.takeWhile_append_of_pos hall]
      simp
    rw [this, List.reverse_reverse]
    simp [he0]

/-- The part of a path before its last element. -/
theorem dirPart_last_elem (p e : Str) (hes : '/' ∉ e) :
    dirPart e = [] ∧ dirPart (p ++ '/' :: e) = p ++ ['/'] := by
  have hall : ∀ a ∈ e.reverse, (fun c : Char => c != '/') a = true := by
    intro a ha
    have : a ≠ '/' := fun h => hes (h ▸ List.mem_reverse.mp ha)
    simpa using this
  constructor
  · unfold dirPart
    rw [List.dropWhile_eq_nil_iff.mpr hall]
    rfl
  · unfold dirPart
    rw [List.reverse_append, List.reverse_cons, List.append_assoc,
      List.dropWhile_append_of_pos hall]
    simp

theorem joinSlash_ne_dot (l : List Str) (hl : ∀ e ∈ l, e ≠ [] ∧ e ≠ ['.'] ∧ '/' ∉ e) :
    joinSlash l ≠ ['.'] := by
  intro h
  cases l with
  | nil => simp [joinSlash] at h
  | cons e t =>
    obtain ⟨he0, hed, hes⟩ := hl e (by simp)
    cases t with
    | nil => exact hed h
    | cons e2 es =>
      rw [joinSlash_cons_cons] at h
      have : '/' ∈ (['.'] : Str) := by rw [← h]; simp
      exact absurd this (by decide)

/-- For normal elements ending in `e`, the base name of the join is `e` and
the directory name `New` computes is the join of the elements before `e`. -/
theorem Base_dirNameOf_join (init : List Str) (e : Str) (h : NormalElems (init ++ [e])) :
    Base (joinSlash (init ++ [e])) = e ∧
      dirNameOf (joinSlash (init ++ [e])) = joinSlash init := by
  have hk := kept_of_normal h
  obtain ⟨he0, _, hes⟩ := hk e (by simp)
  by_cases hi : init = []
  · subst hi
    simp only [List.nil_append, joinSlash]
    refine ⟨(Base_last_elem [] e he0 hes).1, ?_⟩
    unfold dirNameOf Dir
    rw [(dirPart_last_elem [] e hes).1]
    decide
  · rw [joinSlash_concat init e hi]
    refine ⟨(Base_last_elem _ e he0 hes).2, ?_⟩
    have hni : NormalElems init := normal_front h
    unfold dirNameOf Dir
    rw [(dirPart_last_elem _ e hes).2, (Clean_joinSlash hni hi).2]
    simp [joinSlash_ne_dot init (kept_of_normal hni)]

/-- A non-empty canonical name is its directory name and its base name put
together again. -/
theorem canonName_rebuild {zipRoot : Str} {zf : ZipFile} {n : Str}
    (h : canonName zipRoot zf = some n) (hne : n ≠ []) :
    n = if dirNameOf n = [] then Base n else dirNameOf n ++ '/' :: Base n := by
  obtain ⟨l, hl, hj⟩ := canonName_normal h
  rcases List.eq_nil_or_concat l with hnil | ⟨init, e, hc⟩
  · subst hnil
    exact absurd hj hne
  · rw [List.concat_eq_append] at hc
    subst hc
    obtain ⟨hb, hd⟩ := Base_dirNameOf_join init e hl
    rw [← hj] at hb hd
    rw [hb, hd]
    by_cases hi : init = []
    · subst hi
      simpa [joinSlash] using hj
    · obtain ⟨c, r, hcr, _⟩ := joinSlash_head init (kept_of_normal (normal_front hl)) hi
      have hjn : joinSlash init ≠ [] := by rw [hcr]; simp
      simp only [hjn, ↓reduceIte]
      rw [hj, joinSlash_concat init e hi]

/-- Two members with the same parent directory and the same base name have
the same canonical name. -/
theorem canonName_of_childBase {zipRoot d : Str} {zf : ZipFile} {b : Str}
    (h : childBase zipRoot d zf = some b) :
    canonName zipRoot zf = some (if d = [] then b else d ++ '/' :: b) := by
  unfold childBase at h
  cases hc : canonName zipRoot zf with
  | none => simp [hc] at h
  | some n =>
    simp only [hc] at h
    by_cases hcond : n ≠ [] ∧ dirNameOf n = d
    · rw [if_pos hcond] at h
      have hb := Option.some.inj h
      have := canonName_rebuild hc hcond.1
      rw [hcond.2, hb] at this
      rw [← this]
    · simp [hcond] at h

/-- Members with pairwise distinct canonical names give pairwise distinct
base names to a directory. -/
theorem nodup_children (zipRoot d : Str) (L : List ZipFile)
    (h : (L.filterMap (canonName zipRoot)).Nodup) :
    (L.filterMap (childBase zipRoot d)).Nodup := by
  induction L with
  | nil => exact List.nodup_nil
  | cons a t ih =>
    cases hc : canonName zipRoot a with
    | none =>
      have hb : childBase zipRoot d a = none := by simp [childBase, hc]
      rw [List.filterMap_cons_none hc] at h
      rw [List.filterMap_cons_none hb]
      exact ih h
    | some n =>
      rw [List.filterMap_cons_some hc, List.nodup_cons] at h
      cases hb : childBase zipRoot d a with
      | none =>
        rw [List.filterMap_cons_none hb]
        exact ih h.2
      | some b =>
        rw [List.filterMap_cons_some hb, List.nodup_cons]
        refine ⟨?_, ih h.2⟩
        intro hmem
        obtain ⟨c, hct, hcb⟩ := List.mem_filterMap.mp hmem
        have h1 := canonName_of_childBase hb
        have h2 := canonName_of_childBase hcb
        rw [hc] at h1
        rw [← h1] at h2
        exact h.1 (List.mem_filterMap.mpr ⟨c, hct, h2⟩)

/-- C24 (as stated) fails: in the file system of `dupChildArchive`, which
lists `pkg/a.js` twice as a file, the children list of the root entry holds
`a.js` twice; and in the file system of `fileParentArchive` the entry `a` of
kind file has the non-empty children list `b`. -/
theorem children_set_counterexample :
    New (.ok dupChildArchive) "/m".toList "pkg/".toList "/".toList = .ok dupChildFS ∧
      (lookup dupChildFS.entries []).map (fun e => e.D) =
        some ["a.js".toList, "a.js".toList] ∧
      ¬ (["a.js".toList, "a.js".toList] : List Str).Nodup ∧
      New (.ok fileParentArchive) "/m".toList "pkg/".toList "/".toList = .ok fileParentFS ∧
      (lookup fileParentFS.entries "a".toList).map (fun e => (e.K, e.D)) =
        some (Kind.fil, ["b".toList]) := by
  decide

/-- C24 (amended): in a file system `New` has built from an archive whose
members under the in-archive root have pairwise distinct canonical names, no
children list holds a base name twice; and when every member whose canonical
name is the parent directory name of another member's non-empty canonical
name is a directory, every entry with a non-empty children list has kind
directory. -/
theorem children_set_for_distinct_names (ms : List ZipFile) (fsRoot zipRoot cwd : Str)
    (zfs : ZipFS) (hnew : New (.ok ms) fsRoot zipRoot cwd = .ok zfs) :
    ((ms.filterMap (canonName (cleanupName zipRoot))).Nodup →
        ∀ k e, lookup zfs.entries k = some e → e.D.Nodup) ∧
      ((∀ p ∈ ms, ∀ c ∈ ms, canonName (cleanupName zipRoot) c ≠ none →
          canonName (cleanupName zipRoot) c ≠ some [] →
          canonName (cleanupName zipRoot) p =
            (canonName (cleanupName zipRoot) c).map dirNameOf →
          classify p.Mode = some Kind.dir) →
        ∀ k e, lookup zfs.entries k = some e → e.D ≠ [] → e.K = Kind.dir) := by
  constructor
  · intro hd k e he
    obtain ⟨m0, post, hsplit, _, _, hentry⟩ := New_lookup_some hnew he
    rw [hentry]
    apply nodup_children
    rw [hsplit, List.filterMap_append] at hd
    exact hd.of_append_right
  · intro hb k e he hD
    obtain ⟨m0, post, hsplit, hm0, hcl, hentry⟩ := New_lookup_some hnew he
    rw [hentry] at hD ⊢
    obtain ⟨b, hbm⟩ := List.exists_mem_of_ne_nil _ hD
    obtain ⟨c, hc, hcb⟩ := List.mem_filterMap.mp hbm
    have hm0mem : m0 ∈ ms := by rw [hsplit]; simp
    have hcmem : c ∈ ms := by
      rw [hsplit]
      exact List.mem_append_right _ hc
    unfold childBase at hcb
    cases hcn : canonName (cleanupName zipRoot) c with
    | none => simp [hcn] at hcb
    | some n =>
      simp only [hcn] at hcb
      by_cases hcond : n ≠ [] ∧ dirNameOf n = k
      · have := hb m0 hm0mem c hcmem (by simp [hcn])
          (by rw [hcn]; exact fun h => hcond.1 (Option.some.inj h))
          (by rw [hm0, hcn, Option.map_some', hcond.2])
        show kindOf m0 = Kind.dir
        simp [kindOf, this]
      · simp [hcond] at hcb

/-- The amended C24 at `nodeModulesArchive`: three members with distinct
canonical names, each parent a directory. -/
theorem children_set_for_distinct_names_witness :
    New (.ok nodeModulesArchive) "/proj/node_modules".toList "node_modules/".toList
        "/proj".toList = .ok nodeModulesFS ∧
      (∀ k e, lookup nodeModulesFS.entries k = some e → e.D.Nodup) ∧
      (∀ k e, lookup nodeModulesFS.entries k = some e → e.D ≠ [] → e.K = Kind.dir) :=
  have h := children_set_for_distinct_names nodeModulesArchive "/proj/node_modules".toList
    "node_modules/".toList "/proj".toList nodeModulesFS (by decide)
  ⟨by decide, h.1 (by decide), h.2 (by decide)⟩

end Zipfs
